import Mathlib

/-!
Verification of the `cornice_sphinx` Sphinx extension
(`src/cornice_sphinx/__init__.py`) against its natural-language
specification.

The development shallowly embeds the Python module.  Python strings are
modelled as `String` / `List Char` (character classes are restricted to the
ASCII/Latin-1 whitespace and line-break characters plus the Unicode line and
paragraph separators; the exotic Unicode space characters recognised by
Python's `str` methods play no role in any claim).  Fallible Python code
(`dict[...]` lookup, `getattr`) is embedded with `Except`.  External
collaborators (the cornice registry, docutils parsing, module import side
effects) are modelled explicitly and are marked as such in their doc
comments.
-/

namespace CorniceSphinx

/-! ## Python string primitives used by `trim` and `string2lines` -/

/-- Whitespace characters recognised by Python's `str.strip` family
(restricted to the ASCII/Latin-1 range plus the Unicode line/paragraph
separators). -/
def isPySpace (c : Char) : Bool :=
  c = ' ' || c = '\t' || c = '\n' || c = '\r' || c = '\x0b' || c = '\x0c' ||
  c = '\x1c' || c = '\x1d' || c = '\x1e' || c = '\x1f' || c = '\x85' ||
  c = '\u2028' || c = '\u2029'

/-- Line-boundary characters recognised by Python's `str.splitlines`
(same restriction as `isPySpace`). -/
def isLineBreak (c : Char) : Bool :=
  c = '\n' || c = '\r' || c = '\x0b' || c = '\x0c' ||
  c = '\x1c' || c = '\x1d' || c = '\x1e' || c = '\x85' ||
  c = '\u2028' || c = '\u2029'

/-- Collapse the two-character boundary `"\r\n"` into a single `'\n'`,
the first step of `str.splitlines`. -/
def normNewlines : List Char → List Char
  | [] => []
  | [c] => [c]
  | c :: c' :: rest =>
    if c = '\r' ∧ c' = '\n' then '\n' :: normNewlines rest
    else c :: normNewlines (c' :: rest)

/-- Push a character onto the first line of an already-split tail. -/
def consHead (c : Char) : List (List Char) → List (List Char)
  | [] => [[c]]
  | l :: ls => (c :: l) :: ls

/-- Split on the single-character line boundaries (after `normNewlines`).
A trailing boundary does not produce a final empty line, matching
`str.splitlines`. -/
def splitOnBreaks : List Char → List (List Char)
  | [] => []
  | c :: rest =>
    if isLineBreak c then [] :: splitOnBreaks rest
    else consHead c (splitOnBreaks rest)

/-- Python's `str.splitlines`. -/
def splitlinesList (cs : List Char) : List (List Char) :=
  splitOnBreaks (normNewlines cs)

/-- Python's `str.expandtabs(tabsize)`: each tab advances the column to the
next multiple of `tabsize`; the column resets to zero after `'\n'` and
`'\r'`. -/
def expandtabsAux (tabsize : Nat) : List Char → Nat → List Char
  | [], _ => []
  | c :: cs, col =>
    if c = '\t' then
      if tabsize = 0 then expandtabsAux tabsize cs col
      else
        let n := tabsize - col % tabsize
        List.replicate n ' ' ++ expandtabsAux tabsize cs (col + n)
    else
      c :: expandtabsAux tabsize cs (if c = '\n' || c = '\r' then 0 else col + 1)

/-- Python's `str.expandtabs(tabsize)` starting at column 0. -/
def expandtabsList (tabsize : Nat) (cs : List Char) : List Char :=
  expandtabsAux tabsize cs 0

/-- Python's `str.lstrip()`. -/
def lstripL (cs : List Char) : List Char := cs.dropWhile isPySpace

/-- Python's `str.rstrip()`. -/
def rstripL (cs : List Char) : List Char := (cs.reverse.dropWhile isPySpace).reverse

/-- Python's `str.strip()`. -/
def stripL (cs : List Char) : List Char := rstripL (lstripL cs)

/-- `sys.maxsize` on a 64-bit build. -/
def maxSize : Nat := 2 ^ 63 - 1

/-- `len(line) - len(line.lstrip())`, the indentation measure used by
`trim`. -/
def lineIndent (line : List Char) : Nat := line.length - (lstripL line).length

/-- One step of the minimum-indentation loop in `trim`: blank lines are
skipped. -/
def indentStep (ind : Nat) (line : List Char) : Nat :=
  if lstripL line ≠ [] then min ind (lineIndent line) else ind

/-- The minimum-indentation loop in `trim`, starting from `sys.maxsize`;
it is applied to `lines[1:]`. -/
def minIndent (lines : List (List Char)) : Nat :=
  lines.foldl indentStep maxSize

/-- `while trimmed and not trimmed[0]: trimmed.pop(0)`. -/
def dropLeadingBlanks (ls : List (List Char)) : List (List Char) :=
  ls.dropWhile (·.isEmpty)

/-- `while trimmed and not trimmed[-1]: trimmed.pop()`. -/
def dropTrailingBlanks (ls : List (List Char)) : List (List Char) :=
  (ls.reverse.dropWhile (·.isEmpty)).reverse

/-- `'\n'.join(...)` on character lists. -/
def joinNL : List (List Char) → List Char
  | [] => []
  | [l] => l
  | l :: l' :: ls => l ++ '\n' :: joinNL (l' :: ls)

/-- Core of `trim` once the input has been tab-expanded and split into
lines: dedent `lines[1:]` by the minimum indentation (each line is also
right-stripped), strip `lines[0]` separately, then pop trailing and leading
blank lines. -/
def trimLines (lines : List (List Char)) : List (List Char) :=
  let indent := minIndent (lines.drop 1)
  let trimmed := stripL (lines.headD []) ::
    (if indent < maxSize then (lines.drop 1).map (fun line => rstripL (line.drop indent)) else [])
  dropLeadingBlanks (dropTrailingBlanks trimmed)

/-- `trim(docstring)` from `src/cornice_sphinx/__init__.py` (the PEP-257
docstring normalizer).  `none` models passing Python `None`; the falsy test
`if not docstring` accepts both `None` and the empty string. -/
def trim : Option String → String
  | none => ""
  | some s =>
    if s.data = [] then ""
    else String.mk (joinNL (trimLines (splitlinesList (expandtabsList 8 s.data))))

/-! ## Data model of the service renderer

The records below embed the duck-typed Python values that
`ServiceDirective` inspects.  Optional attributes/keys are `Option` fields
(`none` = attribute or key absent). -/

/-- Python values that reach `json.dumps(attr.missing)`. -/
inductive JVal where
  | jstr (s : String)
  | jnum (n : Int)
  | jbool (b : Bool)
deriving DecidableEq

/-- `json.dumps` on the modelled values (string escaping not needed for the
claims). -/
def jsonDumps : JVal → String
  | .jstr s => "\"" ++ s ++ "\""
  | .jnum n => toString n
  | .jbool b => if b then "true" else "false"

/-- A schema field as probed by the renderer: `name`, optional `location`
attribute, optional `type` attribute, optional `typ` (recorded as
`typ.__class__.__name__`), `required`, `missing` (`none` = Python `None`)
and `description` (falsy = `""`). -/
structure Attr where
  name : String
  location : Option String := none
  type_ : Option String := none
  typ : Option String := none
  required : Bool := false
  missing : Option JVal := none
  description : String := ""
deriving DecidableEq

/-- A view or validator: either a plain name string (looked up on
`args['klass']`) or an object carrying a docstring (`none` = no `__doc__`). -/
inductive Handler where
  | str (s : String)
  | obj (doc : Option String)
deriving DecidableEq

/-- The definition-args mapping, restricted to the keys the renderer
inspects.  `schema` is modelled as the already-resolved list of fields
(`DottedNameResolver(...).maybe_resolve` and `schema()` are external).
`accept` is modelled after `to_list`, i.e. as a list of content types; the
`callable(accept)` branch in the source is unreachable because `to_list`
always returns a list and Python lists are not callable.  `klass` maps
attribute names to the docstrings of the attribute objects. -/
structure Args where
  schema : Option (List Attr) := none
  validators : Option (List Handler) := none
  accept : Option (List String) := none
  renderer : Option String := none
  klass : Option (List (String × Option String)) := none
deriving DecidableEq

/-- One `(method, view, args)` triple of `service.definitions`. -/
structure Definition where
  method : String
  view : Handler
  args : Args
deriving DecidableEq

/-- A cornice service descriptor, as read by the renderer. -/
structure Service where
  name : String
  path : String
  description : Option String := none
  definitions : List Definition := []
deriving DecidableEq

/-- The docutils nodes constructed by this module (each constructor keeps
exactly the payload the source sets on it). -/
inductive Node where
  | section (ids : List String) (children : List Node)
  | title (text : String)
  | inline (text : String) (children : List Node)
  | strong (text : String) (children : List Node)
  | bullet_list (items : List Node)
  | list_item (children : List Node)
  | paragraph (text : String) (children : List Node)
  | error (children : List Node)

/-- `str.lower()` (ASCII). -/
def pyLower (s : String) : String := String.mk (s.data.map Char.toLower)

/-- Helper for `str.title()`: the Boolean records whether the previous
character was cased. -/
def pyTitleAux : List Char → Bool → List Char
  | [], _ => []
  | c :: cs, prevCased =>
    (if prevCased then c.toLower else c.toUpper) :: pyTitleAux cs c.isAlpha

/-- `str.title()` (ASCII): uppercase at the start of each letter run,
lowercase inside. -/
def pyTitle (s : String) : String := String.mk (pyTitleAux s.data false)

/-- `isPrefixL pat l`: `l` starts with `pat`. -/
def isPrefixL : List Char → List Char → Bool
  | [], _ => true
  | _ :: _, [] => false
  | p :: ps, c :: cs => p = c && isPrefixL ps cs

/-- Python's substring test `pat in l`. -/
def containsSub : List Char → List Char → Bool
  | pat, [] => pat.isEmpty
  | pat, c :: cs => isPrefixL pat (c :: cs) || containsSub pat cs

/-- Python's substring test on strings. -/
def pyInStr (pat s : String) : Bool := containsSub pat.data s.data

/-- `format_docstring(obj)`: trimmed docstring (with a `None` docstring
coerced to `""` by `obj.__doc__ or ""`) plus a trailing newline. -/
def format_docstring (doc : Option String) : String :=
  trim (some (doc.getD "")) ++ "\n"

/-- `ServiceDirective._resolve_obj_to_docstring`: resolve a view or
validator to a docstring.  A string handler with a `'klass'` key is looked
up via `getattr(args['klass'], obj.lower())`, which raises `AttributeError`
when the attribute is absent; with no `'klass'` key the result is `''`;
a non-string handler uses its own docstring. -/
def _resolve_obj_to_docstring (obj : Handler) (args : Args) : Except String String :=
  match obj with
  | .str s =>
    match args.klass with
    | some klass =>
      match klass.find? (fun kv => kv.1 = pyLower s) with
      | some kv => .ok (format_docstring kv.2)
      | none => .error ("AttributeError: " ++ pyLower s)
    | none => .ok ""
  | .obj doc => .ok (format_docstring doc)

/-- cornice's `to_list` at the `_get_attributes` call site: the location
argument is a string, which `to_list` wraps into a one-element list
(external collaborator). -/
def to_list_str (s : String) : List String := [s]

/-- `ServiceDirective._get_attributes`: the schema's children filtered by
location.  A field with no `location` attribute passes the filter iff the
substring `'body'` occurs in the queried location string. -/
def _get_attributes (schema : List Attr) (location : String) : List Attr :=
  schema.filter (fun attr =>
    match attr.location with
    | none => pyInStr "body" location
    | some loc => (to_list_str location).contains loc)

/-- Body of the `for attr in attributes` loop in `_render_service`: one
bullet-list item for a schema field. -/
def render_attr_item (attr : Attr) : Node :=
  let attr_type : Option String :=
    match attr.type_ with
    | some t => some t
    | none => attr.typ
  Node.list_item
    ([Node.strong attr.name []] ++
     (match attr_type with
      | some t => [Node.inline (" (" ++ t ++ ")") []]
      | none => []) ++
     (if attr.required = false ∨ attr.description ≠ "" then
        [Node.inline " - " []] ++
        (if attr.required = false then
           (match attr.missing with
            | some v => [Node.inline ("(default: " ++ jsonDumps v ++ ") ") []]
            | none => [Node.inline "(optional) " []])
         else []) ++
        (if attr.description ≠ "" then [Node.inline attr.description []] else [])
      else []))

/-- The `for location in ('header', 'querystring', 'body')` loop in
`_render_service`: the `attrs_node` inline container. -/
def render_attrs (schema : List Attr) : Node :=
  Node.inline ""
    ((["header", "querystring", "body"]).foldl (fun acc location =>
      let attributes := _get_attributes schema location
      if attributes ≠ [] then
        acc ++ [Node.inline ("values in the " ++ location) [],
                Node.bullet_list (attributes.map render_attr_item)]
      else acc) [])

/-- The accept block of `_render_service` (non-callable case). -/
def render_accept (accept : List String) : Node :=
  Node.strong "Accepted content types:"
    [Node.bullet_list (accept.map (fun item => Node.list_item [Node.inline item []]))]

/-- `rst2node(data, env)`: empty input yields no node; the docutils parse
itself (together with the subsequent in-place `DocFieldTransformer`
rewriting, whose composed result on a given string is deterministic) is an
external collaborator abstracted by the parameter `rstP`. -/
def rst2node (rstP : String → Node) (data : String) : Option Node :=
  if data = "" then none else some (rstP data)

/-! ## The option bag and the directive entry points -/

/-- A converted directive option value: `directives.unchanged` produces a
string, `convert_to_list` a list, `from_json_to_dict` a map (its iteration
order is the JSON insertion order). -/
inductive OptVal where
  | vstr (s : String)
  | vlist (l : List String)
  | vmap (m : List (String × String))
deriving DecidableEq

/-- `self.options.get(k)` on the parsed option dict. -/
def optGet (options : List (String × OptVal)) (k : String) : Option OptVal :=
  (options.find? (fun kv => kv.1 = k)).map (fun kv => kv.2)

/-- `self.options.get(k, [])` for a comma-list option. -/
def optGetList (options : List (String × OptVal)) (k : String) : List String :=
  match optGet options k with
  | some (.vlist l) => l
  | _ => []

/-- `self.options.get(k)` for a plain-string option. -/
def optGetStr (options : List (String × OptVal)) (k : String) : Option String :=
  match optGet options k with
  | some (.vstr s) => some s
  | _ => none

/-- `self.options.get(k, {})` for a JSON-map option. -/
def optGetMap (options : List (String × OptVal)) (k : String) : List (String × String) :=
  match optGet options k with
  | some (.vmap m) => m
  | _ => []

/-- `ServiceDirective.option_spec`: the recognized option names. -/
def option_spec : List String :=
  ["modules", "app", "service", "services", "ignore", "ignore-methods",
   "docstring-replace", "title-replace"]

/-- The docutils option parser only produces keys declared in
`option_spec`; a directive invocation with an unrecognized option is
rejected before `run` is called. -/
def parsedOptions (options : List (String × OptVal)) : Prop :=
  ∀ kv ∈ options, kv.1 ∈ option_spec

/-- `for replace_key, replace_value in mapping.items(): s = s.replace(k, v)`
(the Lean `String.replace` leaves the string unchanged for an empty search
key, where Python would interleave the replacement; no claim involves an
empty key). -/
def applyReplaces (m : List (String × String)) (s : String) : String :=
  m.foldl (fun acc kv => acc.replace kv.1 kv.2) s

/-- `convert_to_list`: split a comma-separated option argument and strip
each item; `None` yields `[]`. -/
def convert_to_list (argument : Option String) : List String :=
  match argument with
  | none => []
  | some s => (s.splitOn ",").map (fun i => String.mk (stripL i.data))

/-- `convert_to_list_required`: like `convert_to_list` but `None` raises
`ValueError('argument required but none supplied')`. -/
def convert_to_list_required (argument : Option String) : Except String (List String) :=
  match argument with
  | none => .error "argument required but none supplied"
  | some s => .ok (convert_to_list (some s))

/-- The `for validator in args.get('validators', ())` loop: append each
validator's resolved docstring to the running docstring. -/
def appendValidatorDocstrings (validators : List Handler) (args : Args)
    (docstring : String) : Except String String :=
  match validators with
  | [] => .ok docstring
  | v :: vs =>
    match _resolve_obj_to_docstring v args with
    | .error e => .error e
    | .ok dv => appendValidatorDocstrings vs args (docstring ++ dv)

/-- Body of the `for method, view, args in service.definitions` loop of
`_render_service`: `.ok none` = method skipped, `.ok (some node)` = one
method subsection, `.error` = the Python exception that aborts the
directive (`KeyError` for a missing `'renderer'` key, `AttributeError` from
`getattr`, `TypeError` from `DocFieldTransformer.transform_all(None)` when
the accumulated docstring is empty so `rst2node` returned `None`). -/
def render_definition (rstP : String → Node) (options : List (String × OptVal))
    (service_id : String) (d : Definition) : Except String (Option Node) :=
  if d.method = "HEAD" then .ok none
  else if (optGetList options "ignore-methods").contains d.method then .ok none
  else
    match _resolve_obj_to_docstring d.view d.args with
    | .error e => .error e
    | .ok doc0 =>
      match appendValidatorDocstrings (d.args.validators.getD []) d.args
          (applyReplaces (optGetMap options "docstring-replace") doc0) with
      | .error e => .error e
      | .ok docstring =>
        match rst2node rstP docstring with
        | none => .error "TypeError: DocFieldTransformer.transform_all(None)"
        | some node =>
          match d.args.renderer with
          | none => .error "KeyError: renderer"
          | some r =>
            .ok (some (Node.section [service_id ++ "-" ++ d.method]
              ([Node.title d.method] ++
               (match d.args.schema with
                | some schema => [render_attrs schema]
                | none => []) ++
               (match d.args.accept with
                | some accept => [render_accept accept]
                | none => []) ++
               [node] ++
               [Node.paragraph "" [Node.strong ("Response: " ++
                  (if r = "simplejson" then "json" else r)) []]])))

/-- The definitions loop of `_render_service` in order, collecting the
method subsections and propagating the first exception. -/
def render_definitions (rstP : String → Node) (options : List (String × OptVal))
    (service_id : String) : List Definition → Except String (List Node)
  | [] => .ok []
  | d :: ds =>
    match render_definition rstP options service_id d with
    | .error e => .error e
    | .ok n? =>
      match render_definitions rstP options service_id ds with
      | .error e => .error e
      | .ok rest => .ok ((match n? with | some n => [n] | none => []) ++ rest)

/-- `ServiceDirective._render_service`: the titled section for one service.
`serial` is the value of `env.new_serialno('service')` for this call.  A
`None` result of `rst2node` on the description is skipped by the docutils
`+=` operator. -/
def _render_service (rstP : String → Node) (options : List (String × OptVal))
    (serial : Nat) (service : Service) : Except String Node :=
  match render_definitions rstP options ("service-" ++ toString serial)
      service.definitions with
  | .error e => .error e
  | .ok methodNodes =>
    .ok (Node.section ["service-" ++ toString serial]
      ([Node.title (applyReplaces (optGetMap options "title-replace")
          (pyTitle service.name ++ " service at " ++ service.path))] ++
       (match service.description with
        | some d =>
          match rst2node rstP (trim (some d)) with
          | some n => [n]
          | none => []
        | none => []) ++
       methodNodes))

/-- Modelled from the spec (external collaborator, the cornice registry):
`get_services(names=..., exclude=...)` keeps the registered services whose
name is in `names` (all of them when `names is None`) and not in `exclude`
(no exclusion when `exclude is None`). -/
def get_services (registry : List Service) (names : Option (List String))
    (exclude : Option (List String)) : List Service :=
  registry.filter (fun service =>
    (match exclude with
     | some ex => !ex.contains service.name
     | none => true) &&
    (match names with
     | some ns => ns.contains service.name
     | none => true))

/-- The process-wide state the directive touches: the cornice `SERVICES`
registry, the extension's `MODULES` cache, and the sphinx serial counter
behind `env.new_serialno('service')`. -/
structure World where
  registry : List Service
  modules : List String
  serial : Nat
deriving DecidableEq

/-- Observable registry/render events of one `ServiceDirective.run` call,
in execution order. -/
inductive Event where
  | cleared
  | rendered (name : String)
deriving DecidableEq

/-- Result of one `ServiceDirective.run` call: final process state, event
trace, and the returned node list (or the propagated exception). -/
structure RunOut where
  world : World
  events : List Event
  result : Except String (List Node)

/-- The rendering loop `[self._render_service(s) for s in services]`,
threading the serial counter and recording one event per completed
render; an exception aborts the loop. -/
def render_services (rstP : String → Node) (options : List (String × OptVal)) :
    List Service → Nat → List Event × Nat × Except String (List Node)
  | [], serial => ([], serial, .ok [])
  | s :: ss, serial =>
    match _render_service rstP options serial s with
    | .error e => ([], serial + 1, .error e)
    | .ok n =>
      let (evs, serial', rest) := render_services rstP options ss (serial + 1)
      (Event.rendered s.name :: evs, serial',
       match rest with
       | .ok ns => .ok (n :: ns)
       | .error e => .error e)

/-- The registry contents after the `app` import (`app.main({})`) and the
module import loop have run their registration side effects: these effects
are external, so `appEff a` is the list of services `app.main({})`
registers and `impEff m` the list module `m` registers when (re)executed.
A module already in `MODULES` goes through `reload`, which re-executes it,
so both import paths have the same registration effect. -/
def importedRegistry (impEff appEff : String → List Service)
    (options : List (String × OptVal)) (w : World) : List Service :=
  w.registry ++
    (match optGetStr options "app" with
     | some a => appEff a
     | none => []) ++
    (optGetList options "modules").flatMap impEff

/-- `names = self.options.get('services', []); names.append(service)`. -/
def selectedNames (options : List (String × OptVal)) : List String :=
  optGetList options "services" ++
    (match optGetStr options "service" with
     | some s => [s]
     | none => [])

/-- The `get_services(names=names or None, exclude=self.options.get('exclude'))`
call of `ServiceDirective.run`. -/
def selectedServices (impEff appEff : String → List Service)
    (options : List (String × OptVal)) (w : World) : List Service :=
  get_services (importedRegistry impEff appEff options w)
    (if selectedNames options = [] then none else some (selectedNames options))
    (match optGet options "exclude" with
     | some (.vlist l) => some l
     | _ => none)

/-- `ServiceDirective.run`: trigger the import side effects, query the
registry, clear it (`clear_services()`) right after the query and before
any rendering, then render each selected service. -/
def ServiceDirective.run (impEff appEff : String → List Service)
    (rstP : String → Node) (options : List (String × OptVal)) (w : World) : RunOut :=
  { world :=
      { registry := [],
        modules := w.modules ++ (optGetList options "modules").filter
          (fun m => !w.modules.contains m),
        serial := (render_services rstP options
          (selectedServices impEff appEff options w) w.serial).2.1 },
    events := Event.cleared ::
      (render_services rstP options (selectedServices impEff appEff options w) w.serial).1,
    result := (render_services rstP options
      (selectedServices impEff appEff options w) w.serial).2.2 }

/-! ## The inline code executor -/

/-- docutils' `statemachine.string2lines(text, tab_width,
convert_whitespace=True)` (external collaborator, modelled from its
documented behaviour): replace `'\v'`/`'\f'` by spaces, split into lines,
expand tabs and strip trailing whitespace per line. -/
def string2lines (text : String) (tab_width : Nat) : List String :=
  let cleaned := text.data.map (fun c => if c = '\x0b' || c = '\x0c' then ' ' else c)
  (splitlinesList cleaned).map (fun l => String.mk (rstripL (expandtabsList tab_width l)))

/-- `os.path.basename` for POSIX paths (external collaborator). -/
def basename (s : String) : String :=
  String.mk ((s.data.reverse.takeWhile (fun c => c ≠ '/')).reverse)

/-- The ambient state `ExecDirective.run` touches: the stream object
`sys.stdout` currently points at (identified by a number) and the
statemachine input lines at and after the current source position. -/
structure ExecState where
  stdout : Nat
  linesAfter : List String
deriving DecidableEq

/-- Outcome of `exec('\n'.join(self.content))` under the redirected stdout:
what the executed content wrote to the capture buffer, and the exception
text when it raised (`str(sys.exc_info()[1])`). -/
inductive ExecOutcome where
  | success (captured : String)
  | failure (captured : String) (excStr : String)
deriving DecidableEq

/-- `ExecDirective.run`.  The Python `exec` itself is external and is
summarized by `outcome`; `bufferId` identifies the fresh `StringIO()`
capture buffer.  `source` and `lineno` locate the directive in its file.
The `finally` clause restores `sys.stdout` on both paths. -/
def ExecDirective.run (outcome : ExecOutcome) (tab_width : Nat) (source : String)
    (lineno : Nat) (bufferId : Nat) (st : ExecState) : ExecState × List Node :=
  let oldStdout := st.stdout
  let st₁ : ExecState := { st with stdout := bufferId }
  match outcome with
  | .success captured =>
    let lines := string2lines captured tab_width
    let st₂ := { st₁ with linesAfter := lines ++ st₁.linesAfter }
    ({ st₂ with stdout := oldStdout }, [])
  | .failure _ excStr =>
    ({ st₁ with stdout := oldStdout },
     [Node.error
       [Node.paragraph ("Unable to execute python code at " ++ basename source ++ ":" ++
          toString lineno ++ ":") [],
        Node.paragraph excStr []]])

/-! ## Claim theorems for the inline code executor -/

/-! ## Shape of rendered method subsections -/

/-- Last child of a section node. -/
def lastChild : Node → Option Node
  | .section _ children => children.getLast?
  | _ => none

/-! ## Claim C9: which definitions produce a method subsection -/

/-- Title of a method subsection node, when the node is one. -/
def methodTitleOf? : Node → Option String
  | .section _ (Node.title t :: _) => some t
  | _ => none

/-- The titles of the method subsections of a rendered service section. -/
def methodTitles : Node → List String
  | .section _ children => children.filterMap methodTitleOf?
  | _ => []

/-- The method predicate of the definitions loop: kept iff the method is
not `HEAD` and not in the parsed ignore-methods list. -/
def keepMethod (options : List (String × OptVal)) (d : Definition) : Bool :=
  (d.method != "HEAD") && !((optGetList options "ignore-methods").contains d.method)

/-! ## Claim C3: the ignore option never reaches the registry query -/

/-! ## Claim C7: schema-field rendering -/

/-- Text payload of a strong/inline leaf. -/
def inlineText : Node → String
  | .strong t _ => t
  | .inline t _ => t
  | _ => ""

/-- The texts of the pieces of one bullet-list item. -/
def itemTexts : Node → List String
  | .list_item cs => cs.map inlineText
  | _ => []

/-- Fields of a schema at a location, written from the (amended) claim: a
field with a `location` attribute belongs to exactly that location, a field
without one belongs to `body` only. -/
def specFields (schema : List Attr) (location : String) : List Attr :=
  schema.filter (fun attr =>
    match attr.location with
    | none => location == "body"
    | some loc => loc == location)

/-- Type annotation of a field, written from the claim: the `type`
attribute when present, else the class name of `typ` when present, else
nothing. -/
def specType (attr : Attr) : List Node :=
  match attr.type_, attr.typ with
  | some t, _ => [Node.inline (" (" ++ t ++ ")") []]
  | none, some t => [Node.inline (" (" ++ t ++ ")") []]
  | none, none => []

/-- Item suffix written from the amended claim: nothing for a required
field without description; otherwise a `" - "` separator, then — only for
non-required fields — `"(default: <json>)"` when a non-`None` default
exists and `"(optional)"` otherwise, then the description when present. -/
def specSuffix (attr : Attr) : List Node :=
  if attr.required = true ∧ attr.description = "" then []
  else
    [Node.inline " - " []] ++
    (if attr.required = true then []
     else
       match attr.missing with
       | some v => [Node.inline ("(default: " ++ jsonDumps v ++ ") ") []]
       | none => [Node.inline "(optional) " []]) ++
    (if attr.description = "" then [] else [Node.inline attr.description []])

/-- One bullet-list item written from the amended claim: bold name, type
annotation, suffix. -/
def specItem (attr : Attr) : Node :=
  Node.list_item ([Node.strong attr.name []] ++ specType attr ++ specSuffix attr)

/-- The whole schema block written from the amended claim: for each of
`header`, `querystring`, `body` in that fixed order with a non-empty field
list, a location label and a bulleted list of items. -/
def specAttrsNode (schema : List Attr) : Node :=
  Node.inline ""
    ((["header", "querystring", "body"]).flatMap (fun location =>
      if specFields schema location = [] then []
      else [Node.inline ("values in the " ++ location) [],
            Node.bullet_list ((specFields schema location).map specItem)]))

/-- The per-item rendering asserted by claim C7 as stated: the
default/optional marker is tied only to the existence of a default, not to
the field being non-required. -/
def claimC7Item (attr : Attr) : Node :=
  Node.list_item
    ([Node.strong attr.name []] ++ specType attr ++
     (if attr.required = false ∨ attr.description ≠ "" then
        [Node.inline " - " []] ++
        (match attr.missing with
         | some v => [Node.inline ("(default: " ++ jsonDumps v ++ ") ") []]
         | none => [Node.inline "(optional) " []]) ++
        (if attr.description ≠ "" then [Node.inline attr.description []] else [])
      else []))

/-! ## Claim C4: clearing order and repeatability -/

/-- Erase the serial-derived id of a method subsection. -/
def stripMethodNode : Node → Node
  | .section _ cs => .section [] cs
  | n => n

/-- Erase the serial-derived ids of a service section and of its method
subsections — the only places the `env.new_serialno` counter reaches. -/
def stripIdsTop : Node → Node
  | .section _ children => .section [] (children.map stripMethodNode)
  | n => n

def stripExceptOpt : Except String (Option Node) → Except String (Option Node)
  | .ok n? => .ok (n?.map stripMethodNode)
  | .error e => .error e

def stripExcept1 : Except String Node → Except String Node
  | .ok n => .ok (stripIdsTop n)
  | .error e => .error e

def stripResultMethods : Except String (List Node) → Except String (List Node)
  | .ok ns => .ok (ns.map stripMethodNode)
  | .error e => .error e

/-- Erase the serial-derived ids from a run result. -/
def stripResult : Except String (List Node) → Except String (List Node)
  | .ok ns => .ok (ns.map stripIdsTop)
  | .error e => .error e

/-- The section ids of a run result. -/
def resultIds : Except String (List Node) → List (List String)
  | .ok ns => ns.map (fun n => match n with | .section ids _ => ids | _ => [])
  | .error _ => []

/-! ## Generic `dropWhile` helpers -/

theorem dropWhile_append_eq {α : Type} (p : α → Bool) (l₁ l₂ : List α) :
    (l₁ ++ l₂).dropWhile p =
      if (l₁.dropWhile p).isEmpty then l₂.dropWhile p else l₁.dropWhile p ++ l₂ := by
  induction l₁ with
  | nil => simp
  | cons a as ih =>
    by_cases h : p a
    · simpa [List.dropWhile_cons, h] using ih
    · simp [List.dropWhile_cons, h]

theorem dropWhile_self {α : Type} (p : α → Bool) (l : List α) :
    (l.dropWhile p).dropWhile p = l.dropWhile p := by
  induction l with
  | nil => rfl
  | cons a as ih =>
    by_cases h : p a
    · simpa [List.dropWhile_cons, h] using ih
    · simp [List.dropWhile_cons, h]

theorem dropWhile_head_false {α : Type} {p : α → Bool} {l : List α} {a : α} {r : List α}
    (h : l.dropWhile p = a :: r) : p a = false := by
  induction l with
  | nil => simp at h
  | cons b bs ih =>
    by_cases hb : p b
    · exact ih (by simpa [List.dropWhile_cons, hb] using h)
    · rw [List.dropWhile_cons] at h
      simp only [hb, if_false] at h
      cases h
      simpa using hb

theorem mem_dropWhile_of_not {α : Type} {p : α → Bool} {l : List α} {a : α}
    (hmem : a ∈ l) (ha : p a = false) : a ∈ l.dropWhile p := by
  induction l with
  | nil => simp at hmem
  | cons b bs ih =>
    by_cases hb : p b
    · rw [List.dropWhile_cons]
      simp only [hb, if_true]
      rcases List.mem_cons.mp hmem with rfl | h
      · simp [hb] at ha
      · exact ih h
    · simpa [List.dropWhile_cons, hb] using hmem

theorem mem_of_mem_dropWhile {α : Type} {p : α → Bool} {l : List α} {a : α}
    (h : a ∈ l.dropWhile p) : a ∈ l :=
  (List.dropWhile_sublist p).mem h

/-! ## Facts about the Python strip functions -/

theorem lstripL_append (pre l : List Char) (h : ∀ c ∈ pre, isPySpace c = true) :
    lstripL (pre ++ l) = lstripL l := by
  induction pre with
  | nil => rfl
  | cons a as ih =>
    have ha : isPySpace a = true := h a (by simp)
    simp only [lstripL, List.cons_append, List.dropWhile_cons, ha, if_true]
    exact ih (fun c hc => h c (by simp [hc]))

theorem lstripL_cons_of_not {c : Char} (l : List Char) (h : isPySpace c = false) :
    lstripL (c :: l) = c :: l := by
  simp [lstripL, List.dropWhile_cons, h]

theorem lstripL_head_false {l : List Char} {c : Char} {r : List Char}
    (h : lstripL l = c :: r) : isPySpace c = false :=
  dropWhile_head_false h

theorem lstripL_eq_nil_iff {l : List Char} :
    lstripL l = [] ↔ ∀ c ∈ l, isPySpace c = true := by
  simp [lstripL, List.dropWhile_eq_nil_iff]

theorem mem_lstripL {l : List Char} {c : Char} (h : c ∈ lstripL l) : c ∈ l :=
  mem_of_mem_dropWhile h

theorem rstripL_cons_of_not {c : Char} (l : List Char) (h : isPySpace c = false) :
    rstripL (c :: l) = c :: rstripL l := by
  unfold rstripL
  rw [show (c :: l).reverse = l.reverse ++ [c] by simp,
      dropWhile_append_eq]
  by_cases he : (l.reverse.dropWhile isPySpace).isEmpty
  · have : l.reverse.dropWhile isPySpace = [] := by
      simpa [List.isEmpty_iff] using he
    simp [he, this, List.dropWhile_cons, h]
  · simp [he]

theorem rstripL_self (l : List Char) : rstripL (rstripL l) = rstripL l := by
  unfold rstripL
  rw [List.reverse_reverse, dropWhile_self]

theorem mem_rstripL {l : List Char} {c : Char} (h : c ∈ rstripL l) : c ∈ l := by
  unfold rstripL at h
  rw [List.mem_reverse] at h
  have := mem_of_mem_dropWhile h
  simpa using this

theorem mem_stripL {l : List Char} {c : Char} (h : c ∈ stripL l) : c ∈ l :=
  mem_lstripL (mem_rstripL h)

theorem rstripL_nil : rstripL [] = [] := rfl

theorem stripL_nil : stripL [] = [] := rfl

theorem stripL_self (l : List Char) : stripL (stripL l) = stripL l := by
  unfold stripL
  rcases hy : lstripL l with _ | ⟨c, r⟩
  · simp [lstripL, rstripL]
  · have hc : isPySpace c = false := lstripL_head_false hy
    rw [rstripL_cons_of_not r hc, lstripL_cons_of_not _ hc,
        rstripL_cons_of_not (rstripL r) hc, rstripL_self]

theorem stripL_eq_nil_of_space {l : List Char} (h : ∀ c ∈ l, isPySpace c = true) :
    stripL l = [] := by
  have : lstripL l = [] := lstripL_eq_nil_iff.mpr h
  simp [stripL, this, rstripL_nil]

/-! ## Facts about the indentation measure and the minimum-indent loop -/

theorem lineIndent_eq_takeWhile (l : List Char) :
    lineIndent l = (l.takeWhile isPySpace).length := by
  have h := List.takeWhile_append_dropWhile (p := isPySpace) (l := l)
  have hlen : l.length = (l.takeWhile isPySpace).length + (l.dropWhile isPySpace).length := by
    rw [← List.length_append, h]
  simp only [lineIndent, lstripL]
  omega

theorem drop_lineIndent (l : List Char) : l.drop (lineIndent l) = lstripL l := by
  rw [lineIndent_eq_takeWhile]
  have h := List.takeWhile_append_dropWhile (p := isPySpace) (l := l)
  calc l.drop (l.takeWhile isPySpace).length
      = (l.takeWhile isPySpace ++ l.dropWhile isPySpace).drop
          (l.takeWhile isPySpace).length := by rw [h]
    _ = l.dropWhile isPySpace := List.drop_left _ _

theorem lineIndent_ge_of_space_append {pre rest : List Char}
    (h : ∀ c ∈ pre, isPySpace c = true) :
    pre.length ≤ lineIndent (pre ++ rest) := by
  have h1 : lstripL (pre ++ rest) = lstripL rest := lstripL_append pre rest h
  have h2 : (lstripL rest).length ≤ rest.length := (List.dropWhile_sublist _).length_le
  simp only [lineIndent, h1, List.length_append]
  omega

theorem lineIndent_flush {pre rest : List Char} {c : Char}
    (h : ∀ a ∈ pre, isPySpace a = true) (hc : isPySpace c = false) :
    lineIndent (pre ++ c :: rest) = pre.length := by
  have h1 : lstripL (pre ++ c :: rest) = c :: rest := by
    rw [lstripL_append pre _ h, lstripL_cons_of_not _ hc]
  simp only [lineIndent, h1, List.length_append, List.length_cons]
  omega

theorem foldl_indentStep_le (L : List (List Char)) (init : Nat) :
    L.foldl indentStep init ≤ init := by
  induction L generalizing init with
  | nil => simp
  | cons a as ih =>
    refine le_trans (ih (indentStep init a)) ?_
    unfold indentStep
    split
    · exact min_le_left _ _
    · exact le_rfl

theorem foldl_indentStep_le_mem {L : List (List Char)} {l : List Char} (init : Nat)
    (hmem : l ∈ L) (hnb : lstripL l ≠ []) :
    L.foldl indentStep init ≤ lineIndent l := by
  induction L generalizing init with
  | nil => simp at hmem
  | cons a as ih =>
    rcases List.mem_cons.mp hmem with rfl | h
    · refine le_trans (foldl_indentStep_le as _) ?_
      unfold indentStep
      simp only [hnb, if_pos, ne_eq, not_false_eq_true]
      exact min_le_right _ _
    · exact ih _ h

theorem le_foldl_indentStep {L : List (List Char)} {b : Nat} (init : Nat)
    (h : ∀ l ∈ L, lstripL l ≠ [] → b ≤ lineIndent l) (hinit : b ≤ init) :
    b ≤ L.foldl indentStep init := by
  induction L generalizing init with
  | nil => simpa
  | cons a as ih =>
    refine ih _ (fun l hl => h l (by simp [hl])) ?_
    unfold indentStep
    split
    · exact le_min hinit (h a (by simp) (by assumption))
    · exact hinit

theorem foldl_indentStep_cases (L : List (List Char)) (init : Nat) :
    L.foldl indentStep init = init ∨
      ∃ l ∈ L, lstripL l ≠ [] ∧ L.foldl indentStep init = lineIndent l := by
  induction L generalizing init with
  | nil => exact Or.inl rfl
  | cons a as ih =>
    have hstep : List.foldl indentStep init (a :: as) =
        List.foldl indentStep (indentStep init a) as := rfl
    by_cases hb : lstripL a = []
    · have ha : indentStep init a = init := by simp [indentStep, hb]
      rcases ih init with h | ⟨l, hl, hnb, hval⟩
      · exact Or.inl (by rw [hstep, ha, h])
      · exact Or.inr ⟨l, by simp [hl], hnb, by rw [hstep, ha, hval]⟩
    · have ha : indentStep init a = min init (lineIndent a) := by simp [indentStep, hb]
      rcases ih (min init (lineIndent a)) with h | ⟨l, hl, hnb, hval⟩
      · rcases min_cases init (lineIndent a) with ⟨he, _⟩ | ⟨he, _⟩
        · exact Or.inl (by rw [hstep, ha, h, he])
        · exact Or.inr ⟨a, by simp, hb, by rw [hstep, ha, h, he]⟩
      · exact Or.inr ⟨l, by simp [hl], hnb, by rw [hstep, ha, hval]⟩

theorem minIndent_le_mem {L : List (List Char)} {l : List Char}
    (hmem : l ∈ L) (hnb : lstripL l ≠ []) : minIndent L ≤ lineIndent l :=
  foldl_indentStep_le_mem _ hmem hnb

theorem minIndent_cases (L : List (List Char)) :
    minIndent L = maxSize ∨
      ∃ l ∈ L, lstripL l ≠ [] ∧ minIndent L = lineIndent l :=
  foldl_indentStep_cases L maxSize

theorem minIndent_eq_of_common {L : List (List Char)} {pre : List Char}
    (hws : ∀ c ∈ pre, isPySpace c = true)
    (hmax : pre.length < maxSize)
    (hcommon : ∀ l ∈ L, ∃ rest, l = pre ++ rest)
    (hflush : ∃ l ∈ L, ∃ c rest, l = pre ++ c :: rest ∧ isPySpace c = false) :
    minIndent L = pre.length := by
  obtain ⟨l₀, hl₀, c, rest, hleq, hc⟩ := hflush
  have hup : minIndent L ≤ pre.length := by
    have hnb : lstripL l₀ ≠ [] := by
      rw [hleq, lstripL_append pre _ hws, lstripL_cons_of_not _ hc]
      simp
    have := minIndent_le_mem hl₀ hnb
    rwa [hleq, lineIndent_flush hws hc] at this
  have hlow : pre.length ≤ minIndent L := by
    refine le_foldl_indentStep _ (fun l hl _ => ?_) (le_of_lt hmax)
    obtain ⟨rest', hrest'⟩ := hcommon l hl
    rw [hrest']
    exact lineIndent_ge_of_space_append hws
  omega

/-! ## Facts about `joinNL`, `normNewlines` and `splitOnBreaks` -/

theorem joinNL_cons_cons (l l' : List Char) (ls : List (List Char)) :
    joinNL (l :: l' :: ls) = l ++ '\n' :: joinNL (l' :: ls) := rfl

theorem joinNL_cons_ne_nil {a : List Char} (L : List (List Char)) (ha : a ≠ []) :
    joinNL (a :: L) ≠ [] := by
  cases L with
  | nil => simpa [joinNL]
  | cons b bs =>
    rw [joinNL_cons_cons]
    rcases a with _ | ⟨c, cs⟩
    · simp
    · simp

theorem mem_joinNL {c : Char} {L : List (List Char)} (h : c ∈ joinNL L) :
    c = '\n' ∨ ∃ l ∈ L, c ∈ l := by
  induction L with
  | nil => simp [joinNL] at h
  | cons a as ih =>
    cases as with
    | nil =>
      simp only [joinNL] at h
      exact Or.inr ⟨a, by simp, h⟩
    | cons b bs =>
      rw [joinNL_cons_cons] at h
      rcases List.mem_append.mp h with h1 | h1
      · exact Or.inr ⟨a, by simp, h1⟩
      · rcases List.mem_cons.mp h1 with rfl | h2
        · exact Or.inl rfl
        · rcases ih h2 with h3 | ⟨l, hl, hcl⟩
          · exact Or.inl h3
          · exact Or.inr ⟨l, by simp [hl], hcl⟩

theorem normNewlines_cons_of_ne {c : Char} (rest : List Char) (h : c ≠ '\r') :
    normNewlines (c :: rest) = c :: normNewlines rest := by
  cases rest with
  | nil => rfl
  | cons c' rest' =>
    rw [normNewlines, if_neg (by intro hp; exact h hp.1)]

theorem normNewlines_eq_self {cs : List Char} (h : ∀ c ∈ cs, c ≠ '\r') :
    normNewlines cs = cs := by
  induction cs with
  | nil => rfl
  | cons a as ih =>
    rw [normNewlines_cons_of_ne as (h a (by simp))]
    rw [ih (fun c hc => h c (by simp [hc]))]

theorem mem_normNewlines {c : Char} : ∀ {cs : List Char}, c ∈ normNewlines cs → c ∈ cs
  | [], h => by simp [normNewlines] at h
  | [d], h => by simpa [normNewlines] using h
  | d :: d' :: rest, h => by
    by_cases hp : d = '\r' ∧ d' = '\n'
    · rw [normNewlines, if_pos hp] at h
      rcases List.mem_cons.mp h with rfl | h2
      · simp [hp.2]
      · have := mem_normNewlines h2
        simp [this]
    · rw [normNewlines, if_neg hp] at h
      rcases List.mem_cons.mp h with rfl | h2
      · simp
      · have := mem_normNewlines h2
        simpa using Or.inr (List.mem_cons.mp this)

theorem consHead_ne_nil (c : Char) (L : List (List Char)) : consHead c L ≠ [] := by
  cases L <;> simp [consHead]

theorem splitOnBreaks_ne_nil {cs : List Char} (h : cs ≠ []) : splitOnBreaks cs ≠ [] := by
  cases cs with
  | nil => exact absurd rfl h
  | cons a as =>
    rw [splitOnBreaks]
    split
    · simp
    · exact consHead_ne_nil _ _

theorem mem_splitOnBreaks {l : List Char} {cs : List Char}
    (h : l ∈ splitOnBreaks cs) : ∀ c ∈ l, c ∈ cs ∧ isLineBreak c = false := by
  induction cs generalizing l with
  | nil => simp [splitOnBreaks] at h
  | cons a as ih =>
    rw [splitOnBreaks] at h
    by_cases hb : isLineBreak a
    · rw [if_pos hb] at h
      rcases List.mem_cons.mp h with rfl | h2
      · intro c hc; simp at hc
      · intro c hc
        obtain ⟨h3, h4⟩ := ih h2 c hc
        exact ⟨by simp [h3], h4⟩
    · rw [if_neg hb] at h
      rcases hsp : splitOnBreaks as with _ | ⟨m, ms⟩
      · rw [hsp] at h
        simp only [consHead, List.mem_singleton] at h
        subst h
        intro c hc
        rcases List.mem_singleton.mp hc with rfl
        exact ⟨by simp, by simpa using hb⟩
      · rw [hsp] at h
        simp only [consHead] at h
        rcases List.mem_cons.mp h with rfl | h2
        · intro c hc
          rcases List.mem_cons.mp hc with rfl | h3
          · exact ⟨by simp, by simpa using hb⟩
          · obtain ⟨h4, h5⟩ := ih (l := m) (by rw [hsp]; simp) c h3
            exact ⟨by simp [h4], h5⟩
        · intro c hc
          obtain ⟨h4, h5⟩ := ih (l := l) (by rw [hsp]; simp [h2]) c hc
          exact ⟨by simp [h4], h5⟩

theorem splitOnBreaks_breakfree {cs : List Char}
    (h : ∀ c ∈ cs, isLineBreak c = false) (hne : cs ≠ []) :
    splitOnBreaks cs = [cs] := by
  induction cs with
  | nil => exact absurd rfl hne
  | cons a as ih =>
    rw [splitOnBreaks, if_neg (by simp [h a (by simp)])]
    cases as with
    | nil => rfl
    | cons b bs =>
      rw [ih (fun c hc => h c (by simp [hc])) (by simp)]
      rfl

theorem splitOnBreaks_append_newline {a : List Char} (z : List Char)
    (h : ∀ c ∈ a, isLineBreak c = false) :
    splitOnBreaks (a ++ '\n' :: z) = a :: splitOnBreaks z := by
  induction a with
  | nil =>
    rw [List.nil_append, splitOnBreaks, if_pos (by simp [isLineBreak])]
  | cons c cs ih =>
    rw [List.cons_append, splitOnBreaks, if_neg (by simp [h c (by simp)]),
        ih (fun d hd => h d (by simp [hd]))]
    rfl

theorem splitlines_joinNL {L : List (List Char)} (hne : L ≠ [])
    (hbf : ∀ l ∈ L, ∀ c ∈ l, isLineBreak c = false)
    (hlast : L.getLast? ≠ some []) :
    splitlinesList (joinNL L) = L := by
  have hcr : ∀ c ∈ joinNL L, c ≠ '\r' := by
    intro c hc
    rcases mem_joinNL hc with rfl | ⟨l, hl, hcl⟩
    · intro h; cases h
    · intro h
      subst h
      have := hbf l hl '\r' hcl
      simp [isLineBreak] at this
  rw [splitlinesList, normNewlines_eq_self hcr]
  clear hcr
  induction L with
  | nil => exact absurd rfl hne
  | cons a as ih =>
    cases as with
    | nil =>
      have ha : a ≠ [] := by
        intro h; subst h; simp at hlast
      simp only [joinNL]
      exact splitOnBreaks_breakfree (hbf a (by simp)) ha
    | cons b bs =>
      rw [joinNL_cons_cons,
          splitOnBreaks_append_newline _ (hbf a (by simp))]
      rw [ih (by simp) (fun l hl => hbf l (by simp [hl])) (by
        rwa [List.getLast?_cons_cons] at hlast)]

/-! ## Facts about `expandtabs` -/

theorem expandtabsAux_of_tabfree {cs : List Char} (t : Nat)
    (h : ∀ c ∈ cs, c ≠ '\t') : ∀ col, expandtabsAux t cs col = cs := by
  induction cs with
  | nil => intro col; rfl
  | cons a as ih =>
    intro col
    rw [expandtabsAux, if_neg (h a (by simp))]
    rw [ih (fun c hc => h c (by simp [hc]))]

theorem mem_expandtabsAux {c : Char} {cs : List Char} {t col : Nat}
    (h : c ∈ expandtabsAux t cs col) : c ∈ cs ∨ c = ' ' := by
  induction cs generalizing col with
  | nil => simp [expandtabsAux] at h
  | cons a as ih =>
    rw [expandtabsAux] at h
    by_cases ha : a = '\t'
    · rw [if_pos ha] at h
      by_cases ht : t = 0
      · rw [if_pos ht] at h
        rcases ih h with h2 | h2
        · exact Or.inl (by simp [h2])
        · exact Or.inr h2
      · rw [if_neg ht] at h
        rcases List.mem_append.mp h with h2 | h2
        · exact Or.inr (List.eq_of_mem_replicate h2)
        · rcases ih h2 with h3 | h3
          · exact Or.inl (by simp [h3])
          · exact Or.inr h3
    · rw [if_neg ha] at h
      rcases List.mem_cons.mp h with rfl | h2
      · exact Or.inl (by simp)
      · rcases ih h2 with h3 | h3
        · exact Or.inl (by simp [h3])
        · exact Or.inr h3

theorem expandtabsAux_no_tab {cs : List Char} {t col : Nat} :
    ∀ c ∈ expandtabsAux t cs col, c ≠ '\t' := by
  induction cs generalizing col with
  | nil => simp [expandtabsAux]
  | cons a as ih =>
    intro c hc
    rw [expandtabsAux] at hc
    by_cases ha : a = '\t'
    · rw [if_pos ha] at hc
      by_cases ht : t = 0
      · rw [if_pos ht] at hc
        exact ih c hc
      · rw [if_neg ht] at hc
        rcases List.mem_append.mp hc with h2 | h2
        · have := List.eq_of_mem_replicate h2
          subst this
          intro hcon; cases hcon
        · exact ih c h2
    · rw [if_neg ha] at hc
      rcases List.mem_cons.mp hc with rfl | h2
      · exact ha
      · exact ih c h2

theorem expandtabsAux_ne_nil {cs : List Char} {t col : Nat} (h : cs ≠ []) (ht : t ≠ 0) :
    expandtabsAux t cs col ≠ [] := by
  cases cs with
  | nil => exact absurd rfl h
  | cons a as =>
    rw [expandtabsAux]
    by_cases ha : a = '\t'
    · rw [if_pos ha, if_neg ht]
      have hpos : 0 < t - col % t := by
        have : col % t < t := Nat.mod_lt _ (Nat.pos_of_ne_zero ht)
        omega
      intro hcon
      rcases List.append_eq_nil.mp hcon with ⟨h1, _⟩
      rw [List.replicate_eq_nil_iff] at h1
      omega
    · rw [if_neg ha]
      simp

/-! ## Facts about the blank-line popping loops -/

theorem dropTrailingBlanks_cons_of_ne {a : List Char} (L : List (List Char)) (ha : a ≠ []) :
    dropTrailingBlanks (a :: L) = a :: dropTrailingBlanks L := by
  unfold dropTrailingBlanks
  rw [show (a :: L).reverse = L.reverse ++ [a] by simp, dropWhile_append_eq]
  by_cases he : (L.reverse.dropWhile (·.isEmpty)).isEmpty
  · have hnil : L.reverse.dropWhile (·.isEmpty) = [] := by
      simpa [List.isEmpty_iff] using he
    rw [if_pos he, hnil]
    simp [List.dropWhile_cons, List.isEmpty_iff, ha]
  · rw [if_neg he]
    simp

theorem dropTrailingBlanks_self (L : List (List Char)) :
    dropTrailingBlanks (dropTrailingBlanks L) = dropTrailingBlanks L := by
  unfold dropTrailingBlanks
  rw [List.reverse_reverse, dropWhile_self]

theorem mem_dropTrailingBlanks_of_ne {l : List Char} {L : List (List Char)}
    (hmem : l ∈ L) (hl : l ≠ []) : l ∈ dropTrailingBlanks L := by
  unfold dropTrailingBlanks
  rw [List.mem_reverse]
  exact mem_dropWhile_of_not (by simpa using hmem) (by simpa [List.isEmpty_iff] using hl)

theorem mem_of_mem_dropTrailingBlanks {l : List Char} {L : List (List Char)}
    (h : l ∈ dropTrailingBlanks L) : l ∈ L := by
  unfold dropTrailingBlanks at h
  rw [List.mem_reverse] at h
  have := mem_of_mem_dropWhile h
  simpa using this

theorem getLast?_dropTrailingBlanks (L : List (List Char))
    (h : dropTrailingBlanks L ≠ []) : (dropTrailingBlanks L).getLast? ≠ some [] := by
  unfold dropTrailingBlanks at *
  rcases hd : L.reverse.dropWhile (·.isEmpty) with _ | ⟨a, r⟩
  · rw [hd] at h; simp at h
  · have ha : a ≠ [] := by
      have := dropWhile_head_false hd
      simpa [List.isEmpty_iff] using this
    rw [hd, List.getLast?_reverse]
    simpa using ha

theorem dropLeadingBlanks_cons_of_ne {a : List Char} (L : List (List Char)) (ha : a ≠ []) :
    dropLeadingBlanks (a :: L) = a :: L := by
  unfold dropLeadingBlanks
  simp [List.dropWhile_cons, List.isEmpty_iff, ha]

/-! ## Structure of `trimLines` -/

theorem normNewlines_ne_nil {cs : List Char} (h : cs ≠ []) : normNewlines cs ≠ [] := by
  cases cs with
  | nil => exact absurd rfl h
  | cons a as =>
    cases as with
    | nil => simp [normNewlines]
    | cons b bs =>
      rw [normNewlines]
      split <;> simp

theorem splitlinesList_ne_nil {cs : List Char} (h : cs ≠ []) : splitlinesList cs ≠ [] :=
  splitOnBreaks_ne_nil (normNewlines_ne_nil h)

theorem mem_splitlinesList {l : List Char} {cs : List Char}
    (h : l ∈ splitlinesList cs) : ∀ c ∈ l, c ∈ cs ∧ isLineBreak c = false := by
  intro c hc
  obtain ⟨h1, h2⟩ := mem_splitOnBreaks h c hc
  exact ⟨mem_normNewlines h1, h2⟩

theorem trimLines_structure (lines : List (List Char))
    (h0 : stripL (lines.headD []) ≠ []) :
    trimLines lines =
      if minIndent (lines.drop 1) < maxSize then
        stripL (lines.headD []) ::
          dropTrailingBlanks ((lines.drop 1).map
            (fun line => rstripL (line.drop (minIndent (lines.drop 1)))))
      else [stripL (lines.headD [])] := by
  simp only [trimLines]
  by_cases hind : minIndent (lines.drop 1) < maxSize
  · rw [if_pos hind, if_pos hind,
        dropTrailingBlanks_cons_of_ne _ h0, dropLeadingBlanks_cons_of_ne _ h0]
  · rw [if_neg hind, if_neg hind,
        dropTrailingBlanks_cons_of_ne _ h0]
    rw [show dropTrailingBlanks [] = [] from rfl,
        dropLeadingBlanks_cons_of_ne _ h0]

theorem trimLines_fix {a : List Char} {M : List (List Char)}
    (ha : a ≠ []) (hsa : stripL a = a)
    (hM : ∀ y ∈ M, rstripL y = y)
    (hMt : dropTrailingBlanks M = M)
    (hmin : M = [] ∨ minIndent M = 0) :
    trimLines (a :: M) = a :: M := by
  simp only [trimLines]
  simp only [List.drop_succ_cons, List.drop_zero, List.headD_cons]
  rcases hmin with rfl | hmin
  · rw [show minIndent [] = maxSize from rfl, if_neg (lt_irrefl _), hsa,
        dropTrailingBlanks_cons_of_ne _ ha,
        show dropTrailingBlanks [] = [] from rfl,
        dropLeadingBlanks_cons_of_ne _ ha]
  · rw [hmin, if_pos (by norm_num [maxSize])]
    have hmap : M.map (fun line => rstripL (line.drop 0)) = M := by
      conv_rhs => rw [← List.map_id M]
      refine List.map_congr_left (fun y hy => ?_)
      rw [List.drop_zero]
      exact hM y hy
    rw [hsa, hmap, dropTrailingBlanks_cons_of_ne _ ha, hMt,
        dropLeadingBlanks_cons_of_ne _ ha]

theorem splitlines_expandtabs_good (s : String) :
    ∀ l ∈ splitlinesList (expandtabsList 8 s.data), ∀ c ∈ l,
      isLineBreak c = false ∧ c ≠ '\t' := by
  intro l hl c hc
  obtain ⟨hmem, hbf⟩ := mem_splitlinesList hl c hc
  exact ⟨hbf, expandtabsAux_no_tab c hmem⟩

theorem joinNL_singleton (l : List Char) : joinNL [l] = l := rfl

/-- C10 (amended): the text normalizer `trim` is idempotent on every input
whose first line, after tab expansion and line splitting, is not blank: in
that case, after one pass the first line is already stripped, the minimum
indentation of the remaining non-blank lines is zero, every line is already
right-stripped, and no leading or trailing blank lines remain, so a second
pass changes nothing.  (The restriction to a non-blank first line is forced
by `trim_not_idempotent`: popping leading blank lines can promote the
minimum-indentation line into first position, hiding its indentation from
the second pass.) -/
theorem trim_idempotent_of_nonblank_first_line (s : String)
    (h0 : stripL ((splitlinesList (expandtabsList 8 s.data)).headD []) ≠ []) :
    trim (some (trim (some s))) = trim (some s) := by
  classical
  have hsne : s.data ≠ [] := by
    intro h
    apply h0
    rw [h]
    rfl
  have hexpne : expandtabsList 8 s.data ≠ [] := expandtabsAux_ne_nil hsne (by norm_num)
  have hlne : splitlinesList (expandtabsList 8 s.data) ≠ [] := splitlinesList_ne_nil hexpne
  obtain ⟨L0, Ltail, hLeq⟩ : ∃ a as, splitlinesList (expandtabsList 8 s.data) = a :: as := by
    rcases hsp : splitlinesList (expandtabsList 8 s.data) with _ | ⟨a, as⟩
    · exact absurd hsp hlne
    · exact ⟨a, as, rfl⟩
  have hgood : ∀ l ∈ L0 :: Ltail, ∀ c ∈ l, isLineBreak c = false ∧ c ≠ '\t' := by
    rw [← hLeq]
    exact splitlines_expandtabs_good s
  rw [hLeq] at h0
  simp only [List.headD_cons] at h0
  have htrim : trim (some s) =
      String.mk (joinNL (trimLines (L0 :: Ltail))) := by
    simp only [trim]
    rw [if_neg hsne, hLeq]
  have hstruct := trimLines_structure (L0 :: Ltail) (by simpa using h0)
  simp only [List.headD_cons, List.drop_succ_cons, List.drop_zero] at hstruct
  have hsa : stripL (stripL L0) = stripL L0 := stripL_self L0
  have hagood : ∀ c ∈ stripL L0, isLineBreak c = false ∧ c ≠ '\t' :=
    fun c hc => hgood L0 (by simp) c (mem_stripL hc)
  by_cases hind : minIndent Ltail < maxSize
  · -- dedenting pass happened; the result is `stripL L0 :: M`
    rw [if_pos hind] at hstruct
    set M := dropTrailingBlanks
      (Ltail.map (fun line => rstripL (line.drop (minIndent Ltail)))) with hM
    have hMr : ∀ y ∈ M, rstripL y = y := by
      intro y hy
      obtain ⟨l, _, rfl⟩ := List.mem_map.mp (mem_of_mem_dropTrailingBlanks hy)
      exact rstripL_self _
    have hMgood : ∀ y ∈ M, ∀ c ∈ y, isLineBreak c = false ∧ c ≠ '\t' := by
      intro y hy c hc
      obtain ⟨l, hl, rfl⟩ := List.mem_map.mp (mem_of_mem_dropTrailingBlanks hy)
      exact hgood l (by simp [hl]) c (List.mem_of_mem_drop (mem_rstripL hc))
    have hmin0 : minIndent M = 0 := by
      rcases minIndent_cases Ltail with hmax | ⟨lst, hlst, hnb, hval⟩
      · rw [hmax] at hind
        exact absurd hind (lt_irrefl _)
      · rcases hls : lstripL lst with _ | ⟨c, r⟩
        · exact absurd hls hnb
        · have hc : isPySpace c = false := lstripL_head_false hls
          have hdrop : lst.drop (minIndent Ltail) = c :: r := by
            rw [hval, drop_lineIndent, hls]
          have hy : rstripL (lst.drop (minIndent Ltail)) = c :: rstripL r := by
            rw [hdrop, rstripL_cons_of_not _ hc]
          have hymem : (c :: rstripL r) ∈
              Ltail.map (fun line => rstripL (line.drop (minIndent Ltail))) := by
            rw [← hy]
            exact List.mem_map_of_mem _ hlst
          have hyM : (c :: rstripL r) ∈ M :=
            mem_dropTrailingBlanks_of_ne hymem (by simp)
          have hle : minIndent M ≤ lineIndent (c :: rstripL r) :=
            minIndent_le_mem hyM (by rw [lstripL_cons_of_not _ hc]; simp)
          have hzero : lineIndent (c :: rstripL r) = 0 := by
            unfold lineIndent
            rw [lstripL_cons_of_not _ hc]
            omega
          omega
    have hlast : (stripL L0 :: M).getLast? ≠ some [] := by
      cases hMc : M with
      | nil => simpa using h0
      | cons m ms =>
        rw [List.getLast?_cons_cons, ← hMc]
        exact hMc ▸ (hMc ▸ getLast?_dropTrailingBlanks
          (Ltail.map (fun line => rstripL (line.drop (minIndent Ltail))))
          (by rw [← hM, hMc]; simp))
    have hTgood : ∀ l ∈ stripL L0 :: M, ∀ c ∈ l, isLineBreak c = false ∧ c ≠ '\t' := by
      intro l hl
      rcases List.mem_cons.mp hl with rfl | hl2
      · exact hagood
      · exact hMgood l hl2
    have hTne : joinNL (stripL L0 :: M) ≠ [] := joinNL_cons_ne_nil _ h0
    have hexp2 : expandtabsList 8 (joinNL (stripL L0 :: M)) = joinNL (stripL L0 :: M) := by
      refine expandtabsAux_of_tabfree 8 ?_ 0
      intro c hc
      rcases mem_joinNL hc with rfl | ⟨l, hl, hcl⟩
      · decide
      · exact (hTgood l hl c hcl).2
    have hsp2 : splitlinesList (joinNL (stripL L0 :: M)) = stripL L0 :: M :=
      splitlines_joinNL (by simp) (fun l hl c hc => (hTgood l hl c hc).1) hlast
    have hfix : trimLines (stripL L0 :: M) = stripL L0 :: M :=
      trimLines_fix h0 hsa hMr (dropTrailingBlanks_self _) (Or.inr hmin0)
    rw [htrim, hstruct]
    simp only [trim]
    rw [if_neg (by simpa using hTne)]
    rw [hexp2, hsp2, hfix]
  · -- no non-blank line after the first: the result is the single stripped line
    rw [if_neg hind] at hstruct
    have hTne : joinNL [stripL L0] ≠ [] := joinNL_cons_ne_nil _ h0
    have hexp2 : expandtabsList 8 (joinNL [stripL L0]) = joinNL [stripL L0] := by
      refine expandtabsAux_of_tabfree 8 ?_ 0
      intro c hc
      rcases mem_joinNL hc with rfl | ⟨l, hl, hcl⟩
      · decide
      · rcases List.mem_singleton.mp hl with rfl
        exact (hagood c hcl).2
    have hsp2 : splitlinesList (joinNL [stripL L0]) = [stripL L0] := by
      rw [joinNL_singleton]
      rw [splitlinesList, normNewlines_eq_self (fun c hc => by
        have := (hagood c hc).1
        intro hcon
        subst hcon
        simp [isLineBreak] at this)]
      exact splitOnBreaks_breakfree (fun c hc => (hagood c hc).1) h0
    have hfix : trimLines [stripL L0] = [stripL L0] :=
      trimLines_fix h0 hsa (by simp) rfl (Or.inl rfl)
    rw [htrim, hstruct]
    simp only [trim]
    rw [if_neg (by simpa using hTne)]
    rw [hexp2, hsp2, hfix]

/-- C10 counterexample: `trim` is not idempotent.  For the input
`"\n  a\n    b"` the first pass pops the leading blank line, promoting the
minimum-indentation line `"  a"` to first position (yielding `"a\n  b"`),
and the second pass then dedents the remaining line again (yielding
`"a\nb"`). -/
theorem trim_not_idempotent :
    trim (some (trim (some "\n  a\n    b"))) ≠ trim (some "\n  a\n    b") := by
  decide

/-- C10 witness: the idempotence theorem applied to the concrete input
`"a\n  b"`, whose first line is non-blank. -/
theorem trim_idempotent_witness :
    stripL ((splitlinesList (expandtabsList 8 ("a\n  b" : String).data)).headD []) ≠ [] ∧
    trim (some (trim (some "a\n  b"))) = trim (some "a\n  b") :=
  ⟨by decide, trim_idempotent_of_nonblank_first_line "a\n  b" (by decide)⟩

/-- C2 (amended): behaviour of the text normalizer `trim`.  `None`, empty
and whitespace-only inputs yield the empty string.  For any other input
whose lines 2..N (after tab expansion) all start with the same
whitespace block `pre` of length k — with k the minimum, witnessed by a
line whose text starts right after the block — `trim` removes exactly the
k leading characters from each of lines 2..N and additionally strips
trailing whitespace from each of them, strips line 1 separately on both
sides, and pops trailing and leading blank lines.  (The amendment relative
to the claim is the per-line trailing-whitespace strip, forced by
`trim_exact_dedent_counterexample`.) -/
theorem trim_dedent_spec :
    trim none = "" ∧
    trim (some "") = "" ∧
    (∀ t : String, (∀ c ∈ t.data, isPySpace c = true) → trim (some t) = "") ∧
    (∀ (s : String) (pre : List Char),
      pre.length < maxSize →
      (∀ c ∈ pre, isPySpace c = true) →
      (∀ l ∈ (splitlinesList (expandtabsList 8 s.data)).drop 1, l.take pre.length = pre) →
      (∃ l ∈ (splitlinesList (expandtabsList 8 s.data)).drop 1,
        l.drop pre.length ≠ [] ∧ isPySpace ((l.drop pre.length).headD ' ') = false) →
      trim (some s) = String.mk (joinNL (dropLeadingBlanks (dropTrailingBlanks
        (stripL ((splitlinesList (expandtabsList 8 s.data)).headD []) ::
         ((splitlinesList (expandtabsList 8 s.data)).drop 1).map
           (fun l => rstripL (l.drop pre.length))))))) := by
  refine ⟨rfl, rfl, ?_, ?_⟩
  · -- whitespace-only input
    intro t ht
    by_cases hne : t.data = []
    · simp only [trim]
      rw [if_pos hne]
    · simp only [trim]
      rw [if_neg hne]
      have hall : ∀ l ∈ splitlinesList (expandtabsList 8 t.data),
          ∀ c ∈ l, isPySpace c = true := by
        intro l hl c hc
        obtain ⟨hmem, _⟩ := mem_splitlinesList hl c hc
        rcases mem_expandtabsAux hmem with h2 | rfl
        · exact ht c h2
        · decide
      obtain ⟨L0, Ltail, hLeq⟩ :
          ∃ a as, splitlinesList (expandtabsList 8 t.data) = a :: as := by
        rcases hsp : splitlinesList (expandtabsList 8 t.data) with _ | ⟨a, as⟩
        · exact absurd hsp (splitlinesList_ne_nil (expandtabsAux_ne_nil hne (by norm_num)))
        · exact ⟨a, as, rfl⟩
      rw [hLeq] at hall
      rw [hLeq]
      have hmax : minIndent Ltail = maxSize := by
        rcases minIndent_cases Ltail with h | ⟨l, hl, hnb, _⟩
        · exact h
        · exact absurd (lstripL_eq_nil_iff.mpr (hall l (by simp [hl]))) hnb
      have h0 : stripL L0 = [] := stripL_eq_nil_of_space (hall L0 (by simp))
      simp only [trimLines, List.drop_succ_cons, List.drop_zero, List.headD_cons]
      rw [hmax, if_neg (lt_irrefl _), h0]
      rfl
  · -- dedenting by the exact shared indentation
    intro s pre hklt hws hcommon hflush
    obtain ⟨l₀, hl₀mem, hl₀ne, hl₀head⟩ := hflush
    have hsne : s.data ≠ [] := by
      intro h
      rw [h] at hl₀mem
      rw [show splitlinesList (expandtabsList 8 ([] : List Char)) = [] from rfl] at hl₀mem
      simp at hl₀mem
    obtain ⟨L0, Ltail, hLeq⟩ :
        ∃ a as, splitlinesList (expandtabsList 8 s.data) = a :: as := by
      rcases hsp : splitlinesList (expandtabsList 8 s.data) with _ | ⟨a, as⟩
      · exact absurd hsp (splitlinesList_ne_nil (expandtabsAux_ne_nil hsne (by norm_num)))
      · exact ⟨a, as, rfl⟩
    rw [hLeq] at hcommon hl₀mem
    simp only [List.drop_succ_cons, List.drop_zero] at hcommon hl₀mem
    have hcommon' : ∀ l ∈ Ltail, ∃ rest, l = pre ++ rest := by
      intro l hl
      refine ⟨l.drop pre.length, ?_⟩
      conv_lhs => rw [← List.take_append_drop pre.length l]
      rw [hcommon l hl]
    rcases hd : l₀.drop pre.length with _ | ⟨c, r⟩
    · exact absurd hd hl₀ne
    rw [hd] at hl₀head
    simp only [List.headD_cons] at hl₀head
    have hl₀eq : l₀ = pre ++ c :: r := by
      conv_lhs => rw [← List.take_append_drop pre.length l₀]
      rw [hcommon l₀ hl₀mem, hd]
    have hmin : minIndent Ltail = pre.length :=
      minIndent_eq_of_common hws hklt hcommon' ⟨l₀, hl₀mem, c, r, hl₀eq, hl₀head⟩
    simp only [trim]
    rw [if_neg hsne, hLeq]
    simp only [trimLines, List.drop_succ_cons, List.drop_zero, List.headD_cons]
    rw [hmin, if_pos hklt]

/-- C2 counterexample: the claim's "removes exactly k characters from each
of lines 2..N" is false.  In `"a\n b \n c"` lines 2 and 3 share the
leading-whitespace prefix `" "` of length 1 (the minimum: line 3 is `" c"`),
yet line 2 `" b "` is rendered as `"b"`, not `"b "`: `trim` also strips the
trailing whitespace of every dedented line, so more than k characters are
removed. -/
theorem trim_exact_dedent_counterexample :
    (∀ l ∈ (splitlinesList (expandtabsList 8 ("a\n b \n c" : String).data)).drop 1,
        l.take 1 = [' ']) ∧
    trim (some "a\n b \n c") = "a\nb\nc" ∧
    ("a\nb\nc" : String) ≠ "a\nb \nc" := by
  refine ⟨by decide, by decide, by decide⟩

/-- C2 witness: the dedent specification applied to the concrete input
`"a\n  b \n   c"` with shared indentation `"  "` (k = 2). -/
theorem trim_dedent_witness : trim (some "a\n  b \n   c") = "a\nb\n c" := by
  rw [trim_dedent_spec.2.2.2 "a\n  b \n   c" [' ', ' ']
    (by decide) (by decide) (by decide) (by decide)]
  decide

example : trim (some "  hello  ") = "hello" := by rfl

example : trim (some "first\n    second\n      third") = "first\nsecond\n  third" := by rfl

example : trim (some "\n\n  a\n    b\n\n") = "a\n  b" := by rfl

example : trim (some "   \n  \n ") = "" := by rfl

example : trim (some "a\tb\nc") = "a       b\nc" := by rfl

example : trim none = "" := by rfl

/-! ## Substring facts for the error-node statements -/

theorem isPrefixL_append_self (pat r : List Char) : isPrefixL pat (pat ++ r) = true := by
  induction pat with
  | nil => rfl
  | cons p ps ih => simp [isPrefixL, ih]

theorem containsSub_nil_left (l : List Char) : containsSub [] l = true := by
  cases l <;> simp [containsSub, isPrefixL, List.isEmpty]

theorem containsSub_append_self (a pat b : List Char) :
    containsSub pat (a ++ (pat ++ b)) = true := by
  induction a with
  | nil =>
    rw [List.nil_append]
    cases pat with
    | nil => exact containsSub_nil_left b
    | cons p ps =>
      rw [List.cons_append, containsSub]
      rw [show p :: (ps ++ b) = (p :: ps) ++ b from rfl, isPrefixL_append_self]
      rfl
  | cons x xs ih =>
    rw [List.cons_append, containsSub, ih]
    simp

theorem pyInStr_append_self (a pat b : String) :
    pyInStr pat (a ++ pat ++ b) = true := by
  unfold pyInStr
  rw [show (a ++ pat ++ b).data = a.data ++ (pat.data ++ b.data) by
    simp [String.data_append]]
  exact containsSub_append_self a.data pat.data b.data

/-- C6: on every execution path of the inline code executor — success and
exception alike — the process-wide standard-output stream is restored to
exactly its original target before `run` returns; on the exception path the
whole ambient state is returned unmodified and on the success path the only
other change is the documented splice of the captured lines into the input
stream. -/
theorem ExecDirective_run_restores_stdout (outcome : ExecOutcome) (tab_width : Nat)
    (source : String) (lineno : Nat) (bufferId : Nat) (st : ExecState) :
    (ExecDirective.run outcome tab_width source lineno bufferId st).1.stdout = st.stdout ∧
    (∀ captured excStr, outcome = .failure captured excStr →
      (ExecDirective.run outcome tab_width source lineno bufferId st).1 = st) ∧
    (∀ captured, outcome = .success captured →
      (ExecDirective.run outcome tab_width source lineno bufferId st).1 =
        { st with linesAfter := string2lines captured tab_width ++ st.linesAfter }) := by
  refine ⟨?_, ?_, ?_⟩
  · cases outcome <;> rfl
  · rintro captured excStr rfl
    rfl
  · rintro captured rfl
    rfl

/-- C6 witness: a failing execution returns the ambient state untouched. -/
theorem ExecDirective_run_restores_stdout_witness :
    (ExecDirective.run (.failure "partial" "ValueError: bad") 4 "docs/a.rst" 3 1
      ⟨0, ["rest"]⟩).1 = ⟨0, ["rest"]⟩ :=
  (ExecDirective_run_restores_stdout (.failure "partial" "ValueError: bad") 4
    "docs/a.rst" 3 1 ⟨0, ["rest"]⟩).2.1 "partial" "ValueError: bad" rfl

/-- C5: an exception during execution produces exactly one error node whose
first paragraph contains the source location `basename(file):line` and
whose second paragraph is the exception's string representation, while the
partial captured output is discarded (the input stream is unchanged); a
successful execution splices the whitespace-normalized captured lines into
the input stream at the current position and returns an empty node list. -/
theorem ExecDirective_run_spec (tab_width : Nat) (source : String) (lineno : Nat)
    (bufferId : Nat) (st : ExecState) :
    (∀ captured excStr,
      ExecDirective.run (.failure captured excStr) tab_width source lineno bufferId st =
        (st, [Node.error
          [Node.paragraph ("Unable to execute python code at " ++ basename source ++ ":" ++
            toString lineno ++ ":") [],
           Node.paragraph excStr []]]) ∧
      pyInStr (basename source ++ ":" ++ toString lineno)
        ("Unable to execute python code at " ++ basename source ++ ":" ++
          toString lineno ++ ":") = true) ∧
    (∀ captured,
      ExecDirective.run (.success captured) tab_width source lineno bufferId st =
        ({ st with linesAfter := string2lines captured tab_width ++ st.linesAfter }, [])) := by
  refine ⟨fun captured excStr => ⟨rfl, ?_⟩, fun captured => rfl⟩
  have h := pyInStr_append_self "Unable to execute python code at "
    (basename source ++ ":" ++ toString lineno) ":"
  rw [show "Unable to execute python code at " ++
        (basename source ++ ":" ++ toString lineno) ++ ":" =
      "Unable to execute python code at " ++ basename source ++ ":" ++
        toString lineno ++ ":" by simp [String.append_assoc]] at h
  exact h

/-- C5 witness: the executor specification at a concrete failing and a
concrete succeeding execution. -/
theorem ExecDirective_run_spec_witness :
    ExecDirective.run (.failure "partial" "ValueError: bad") 8 "docs/api.rst" 7 1
      ⟨0, ["tail"]⟩ =
      (⟨0, ["tail"]⟩, [Node.error
        [Node.paragraph "Unable to execute python code at api.rst:7:" [],
         Node.paragraph "ValueError: bad" []]]) ∧
    ExecDirective.run (.success "hi\n") 8 "docs/api.rst" 7 1 ⟨0, ["tail"]⟩ =
      (⟨0, ["hi", "tail"]⟩, []) := by
  constructor
  · have h := ((ExecDirective_run_spec 8 "docs/api.rst" 7 1 ⟨0, ["tail"]⟩).1
      "partial" "ValueError: bad").1
    rw [h]
    rfl
  · have h := (ExecDirective_run_spec 8 "docs/api.rst" 7 1 ⟨0, ["tail"]⟩).2 "hi\n"
    rw [h]
    rfl

theorem render_definition_ok_some {rstP : String → Node}
    {options : List (String × OptVal)} {service_id : String} {d : Definition} {n : Node}
    (hok : render_definition rstP options service_id d = .ok (some n)) :
    d.method ≠ "HEAD" ∧
    (optGetList options "ignore-methods").contains d.method = false ∧
    ∃ r, d.args.renderer = some r ∧
    ∃ attrsNodes acceptNodes node,
      n = Node.section [service_id ++ "-" ++ d.method]
        ([Node.title d.method] ++ attrsNodes ++ acceptNodes ++ [node] ++
         [Node.paragraph "" [Node.strong ("Response: " ++
            (if r = "simplejson" then "json" else r)) []]]) := by
  unfold render_definition at hok
  by_cases h1 : d.method = "HEAD"
  · rw [if_pos h1] at hok
    exact absurd hok (by simp)
  rw [if_neg h1] at hok
  by_cases h2 : (optGetList options "ignore-methods").contains d.method
  · rw [if_pos h2] at hok
    exact absurd hok (by simp)
  rw [if_neg h2] at hok
  refine ⟨h1, by simpa using h2, ?_⟩
  split at hok
  · exact Except.noConfusion hok
  split at hok
  · exact Except.noConfusion hok
  split at hok
  · exact Except.noConfusion hok
  split at hok
  · exact Except.noConfusion hok
  rename_i r hr
  rw [Except.ok.injEq, Option.some.injEq] at hok
  exact ⟨r, hr, _, _, _, hok.symm⟩

/-- C8: every successfully rendered method subsection ends with the
response paragraph `"Response: <renderer>"`, where the renderer value
`"simplejson"` is displayed as `"json"` and every other renderer string is
passed through verbatim. -/
theorem render_definition_response_label (rstP : String → Node)
    (options : List (String × OptVal)) (service_id : String) (d : Definition)
    (r : String) (n : Node)
    (hr : d.args.renderer = some r)
    (hok : render_definition rstP options service_id d = .ok (some n)) :
    lastChild n = some (Node.paragraph "" [Node.strong ("Response: " ++
      (if r = "simplejson" then "json" else r)) []]) := by
  obtain ⟨-, -, r', hr', attrsNodes, acceptNodes, node, hn⟩ := render_definition_ok_some hok
  rw [hr] at hr'
  rw [Option.some.injEq] at hr'
  subst hr'
  subst hn
  unfold lastChild
  exact List.getLast?_concat _

/-- C8 witness: a definition with renderer `"simplejson"` is rendered with
the response label `"Response: json"`. -/
theorem render_definition_response_label_witness :
    lastChild (Node.section ["service-0-GET"]
      [Node.title "GET", Node.paragraph "parsed" [],
       Node.paragraph "" [Node.strong "Response: json" []]]) =
      some (Node.paragraph "" [Node.strong "Response: json" []]) :=
  render_definition_response_label (fun _ => Node.paragraph "parsed" []) [] "service-0"
    ⟨"GET", Handler.obj (some "doc"), { renderer := some "simplejson" }⟩
    "simplejson" _ rfl rfl

theorem render_definition_ok_none {rstP : String → Node}
    {options : List (String × OptVal)} {service_id : String} {d : Definition}
    (hok : render_definition rstP options service_id d = .ok none) :
    d.method = "HEAD" ∨ (optGetList options "ignore-methods").contains d.method = true := by
  unfold render_definition at hok
  by_cases h1 : d.method = "HEAD"
  · exact Or.inl h1
  rw [if_neg h1] at hok
  by_cases h2 : (optGetList options "ignore-methods").contains d.method
  · exact Or.inr h2
  rw [if_neg h2] at hok
  exfalso
  split at hok
  · exact Except.noConfusion hok
  split at hok
  · exact Except.noConfusion hok
  split at hok
  · exact Except.noConfusion hok
  split at hok
  · exact Except.noConfusion hok
  rw [Except.ok.injEq] at hok
  exact Option.noConfusion hok

theorem render_definitions_titles {rstP : String → Node}
    {options : List (String × OptVal)} {service_id : String} :
    ∀ {ds : List Definition} {ns : List Node},
      render_definitions rstP options service_id ds = .ok ns →
      ns.filterMap methodTitleOf? = (ds.filter (keepMethod options)).map (fun d => d.method)
  | [], ns, hok => by
    unfold render_definitions at hok
    rw [Except.ok.injEq] at hok
    subst hok
    rfl
  | d :: ds, ns, hok => by
    unfold render_definitions at hok
    split at hok
    · exact Except.noConfusion hok
    rename_i n? hn
    split at hok
    · exact Except.noConfusion hok
    rename_i rest hrest
    rw [Except.ok.injEq] at hok
    subst hok
    cases n? with
    | none =>
      have hskip : keepMethod options d = false := by
        rcases render_definition_ok_none hn with h | h
        · simp [keepMethod, h]
        · replace h : d.method ∈ optGetList options "ignore-methods" := by simpa using h
          simp [keepMethod, h]
      rw [List.nil_append, List.filter_cons, if_neg (by simp [hskip])]
      exact render_definitions_titles hrest
    | some n =>
      obtain ⟨hhead, hign, r, hr, attrsNodes, acceptNodes, node, hneq⟩ :=
        render_definition_ok_some hn
      have hkeep : keepMethod options d = true := by
        replace hign : d.method ∉ optGetList options "ignore-methods" := by simpa using hign
        simp [keepMethod, hhead, hign]
      have htitle : methodTitleOf? n = some d.method := by
        subst hneq
        rfl
      rw [List.singleton_append, List.filter_cons, if_pos (by simp [hkeep]),
          List.filterMap_cons, htitle, List.map_cons]
      rw [render_definitions_titles hrest]

/-- C9: for every successfully rendered service section (of a service
without a description), the method subsections are exactly, and in order,
one per definition whose method is neither `'HEAD'` nor in the
ignore-methods list; definitions with method `'HEAD'` or an ignored method
produce none. -/
theorem _render_service_method_sections (rstP : String → Node)
    (options : List (String × OptVal)) (serial : Nat) (service : Service) (out : Node)
    (hdesc : service.description = none)
    (hok : _render_service rstP options serial service = .ok out) :
    methodTitles out =
      (service.definitions.filter (keepMethod options)).map (fun d => d.method) := by
  unfold _render_service at hok
  split at hok
  · exact Except.noConfusion hok
  rename_i methodNodes hdefs
  rw [Except.ok.injEq] at hok
  subst hok
  have htitle : ∀ t, methodTitleOf? (Node.title t) = none := fun _ => rfl
  simp only [methodTitles, hdesc, List.singleton_append, List.nil_append,
    List.cons_append, List.append_nil, List.filterMap_cons, htitle]
  exact render_definitions_titles hdefs

/-- C9 witness: a service with definitions for GET and HEAD renders exactly
one method subsection, titled GET. -/
theorem _render_service_method_sections_witness :
    ∃ out, _render_service (fun _ => Node.paragraph "parsed" []) [] 0
      ⟨"users", "/users", none,
        [⟨"GET", Handler.obj (some "get users"), { renderer := some "json" }⟩,
         ⟨"HEAD", Handler.obj (some "head users"), { renderer := some "json" }⟩]⟩ =
      .ok out ∧ methodTitles out = ["GET"] := by
  refine ⟨_, rfl, ?_⟩
  rw [_render_service_method_sections (fun _ => Node.paragraph "parsed" []) [] 0
    ⟨"users", "/users", none,
      [⟨"GET", Handler.obj (some "get users"), { renderer := some "json" }⟩,
       ⟨"HEAD", Handler.obj (some "head users"), { renderer := some "json" }⟩]⟩
    _ rfl rfl]
  rfl

/-! ## Claim C1: which extraction/rendering paths raise -/

theorem format_docstring_ne_empty (doc : Option String) : format_docstring doc ≠ "" := by
  unfold format_docstring
  intro h
  have hd : (trim (some (doc.getD "")) ++ "\n").data = [] := by
    rw [h]
  rw [String.data_append] at hd
  simp at hd

/-- C1 counterexample: rendering a definition whose args mapping lacks the
`'renderer'` key raises `KeyError` instead of substituting an empty value,
and a string handler naming an attribute absent from a present
`args['klass']` raises `AttributeError` from `getattr`. -/
theorem render_missing_renderer_counterexample :
    render_definition (fun _ => Node.paragraph "parsed" []) [] "service-0"
      ⟨"GET", Handler.obj (some "doc"), {}⟩ = .error "KeyError: renderer" ∧
    _resolve_obj_to_docstring (Handler.str "collection_get")
      { klass := some [("post", some "post doc")] } =
      .error "AttributeError: collection_get" :=
  ⟨rfl, rfl⟩

/-- C1 (amended): docstring and schema-field extraction is best-effort only
for the cases the source guards — a string handler with no `'klass'` key
resolves to `''`, and missing schema/validators/accept keys default to
empty — but rendering a definition is not exception-free: it raises
(`KeyError`) whenever args lack the `'renderer'` key, a string handler
naming an attribute absent from a present `args['klass']` raises
(`AttributeError`), and the option parser's required-argument check raises
(`ValueError('argument required but none supplied')`); with a non-string
handler, no validators, no docstring replacements and a `'renderer'` key
present, rendering the definition succeeds. -/
theorem extraction_error_spec :
    (∀ (s : String) (args : Args), args.klass = none →
      _resolve_obj_to_docstring (.str s) args = .ok "") ∧
    (∀ (s : String) (args : Args) (klass : List (String × Option String)),
      args.klass = some klass →
      klass.find? (fun kv => kv.1 = pyLower s) = none →
      _resolve_obj_to_docstring (.str s) args =
        .error ("AttributeError: " ++ pyLower s)) ∧
    (∀ (rstP : String → Node) (options : List (String × OptVal))
       (service_id : String) (d : Definition),
      d.method ≠ "HEAD" →
      (optGetList options "ignore-methods").contains d.method = false →
      d.args.renderer = none →
      ∃ e, render_definition rstP options service_id d = .error e) ∧
    convert_to_list_required none = .error "argument required but none supplied" ∧
    (∀ s, convert_to_list_required (some s) = .ok (convert_to_list (some s))) ∧
    (∀ (rstP : String → Node) (options : List (String × OptVal))
       (service_id : String) (method : String) (doc : Option String) (args : Args),
      method ≠ "HEAD" →
      (optGetList options "ignore-methods").contains method = false →
      optGetMap options "docstring-replace" = [] →
      args.validators = none →
      (∃ r, args.renderer = some r) →
      ∃ n, render_definition rstP options service_id ⟨method, .obj doc, args⟩ =
        .ok (some n)) := by
  refine ⟨?_, ?_, ?_, rfl, fun s => rfl, ?_⟩
  · intro s args h
    simp [_resolve_obj_to_docstring, h]
  · intro s args klass h1 h2
    simp [_resolve_obj_to_docstring, h1, h2]
  · intro rstP options service_id d hh hig hr
    unfold render_definition
    rw [if_neg hh, if_neg (by rw [hig]; exact Bool.false_ne_true)]
    split
    · exact ⟨_, rfl⟩
    split
    · exact ⟨_, rfl⟩
    split
    · exact ⟨_, rfl⟩
    rw [hr]
    exact ⟨_, rfl⟩
  · intro rstP options service_id method doc args hh hig hmap hval hr
    obtain ⟨r, hr⟩ := hr
    unfold render_definition
    rw [if_neg hh, if_neg (by rw [hig]; exact Bool.false_ne_true)]
    have h1 : _resolve_obj_to_docstring (Handler.obj doc) args =
        .ok (format_docstring doc) := rfl
    have h2 : appendValidatorDocstrings (args.validators.getD []) args
        (applyReplaces (optGetMap options "docstring-replace") (format_docstring doc)) =
        .ok (format_docstring doc) := by
      rw [hval, hmap]
      rfl
    have h3 : rst2node rstP (format_docstring doc) =
        some (rstP (format_docstring doc)) := by
      unfold rst2node
      rw [if_neg (format_docstring_ne_empty doc)]
    simp only [h1, h2, h3, hr]
    exact ⟨_, rfl⟩

/-- C1 witness: the extraction/raising specification at concrete inputs. -/
theorem extraction_error_spec_witness :
    _resolve_obj_to_docstring (Handler.str "get") {} = .ok "" ∧
    _resolve_obj_to_docstring (Handler.str "get")
      { klass := some [("post", some "d")] } = .error "AttributeError: get" ∧
    (∃ e, render_definition (fun _ => Node.paragraph "" []) [] "service-0"
      ⟨"GET", Handler.obj (some "doc"), {}⟩ = .error e) ∧
    (∃ n, render_definition (fun _ => Node.paragraph "" []) [] "service-0"
      ⟨"GET", Handler.obj (some "doc"), { renderer := some "json" }⟩ = .ok (some n)) :=
  ⟨extraction_error_spec.1 "get" {} rfl,
   extraction_error_spec.2.1 "get" { klass := some [("post", some "d")] }
     [("post", some "d")] rfl rfl,
   extraction_error_spec.2.2.1 (fun _ => Node.paragraph "" []) [] "service-0"
     ⟨"GET", Handler.obj (some "doc"), {}⟩ (by decide) rfl rfl,
   extraction_error_spec.2.2.2.2.2 (fun _ => Node.paragraph "" []) [] "service-0"
     "GET" (some "doc") { renderer := some "json" } (by decide) rfl rfl rfl ⟨"json", rfl⟩⟩

/-- C3 (code bug): `run` passes `self.options.get('exclude')` to the
registry query, but the option parser never produces an `'exclude'` key —
the declared option is named `'ignore'` and is read by nothing — so no
exclusion is ever applied: with parsed options `{ignore: ["foo"]}` and a
registered service `"foo"`, the service is rendered anyway. -/
theorem run_renders_ignored_service :
    optGet [("ignore", OptVal.vlist ["foo"])] "exclude" = none ∧
    "exclude" ∉ option_spec ∧
    (ServiceDirective.run (fun _ => []) (fun _ => [])
      (fun _ => Node.paragraph "parsed" [])
      [("ignore", OptVal.vlist ["foo"])]
      { registry := [⟨"foo", "/foo", none,
          [⟨"GET", Handler.obj (some "doc"), { renderer := some "json" }⟩]⟩],
        modules := [], serial := 0 }).events =
      [Event.cleared, Event.rendered "foo"] :=
  ⟨rfl, by decide, rfl⟩

/-- Supporting fact for C3: any option bag the parser can produce contains
no `'exclude'` key at all, so the `exclude` argument of the registry query
is always `None`. -/
theorem parsed_options_have_no_exclude (options : List (String × OptVal))
    (h : parsedOptions options) : optGet options "exclude" = none := by
  unfold optGet
  rcases hf : options.find? (fun kv => kv.1 = "exclude") with _ | kv
  · rw [hf]
    rfl
  · exfalso
    have hmem := List.mem_of_find?_eq_some hf
    have hp := List.find?_some hf
    have hkey : kv.1 = "exclude" := by simpa using hp
    have := h kv hmem
    rw [hkey] at this
    simp [option_spec] at this

/-- C7 counterexample: for a required field with a description (here
`name="f"`, `required=True`, `description="d"`, no default), the renderer
emits only the description as suffix, while the claim as stated predicts an
`"(optional) "` marker before the description: the marker is emitted only
for non-required fields. -/
theorem render_attr_item_counterexample :
    itemTexts (render_attr_item
      { name := "f", required := true, description := "d" }) = ["f", " - ", "d"] ∧
    itemTexts (claimC7Item
      { name := "f", required := true, description := "d" }) =
      ["f", " - ", "(optional) ", "d"] ∧
    (["f", " - ", "d"] : List String) ≠ ["f", " - ", "(optional) ", "d"] :=
  ⟨rfl, rfl, by decide⟩

theorem render_attr_item_eq_specItem (attr : Attr) :
    render_attr_item attr = specItem attr := by
  unfold render_attr_item specItem specType specSuffix
  rcases attr with ⟨name, location, type_, typ, required, missing, description⟩
  cases required <;> by_cases hd : description = "" <;>
    cases type_ <;> cases typ <;> cases missing <;> simp [hd]

theorem get_attributes_eq_specFields (location : String)
    (hbody : pyInStr "body" location = (location == "body"))
    (schema : List Attr) :
    _get_attributes schema location = specFields schema location := by
  unfold _get_attributes specFields
  refine List.filter_congr (fun attr _ => ?_)
  cases hloc : attr.location with
  | none =>
    simp only [hloc]
    exact hbody
  | some loc =>
    simp only [hloc, to_list_str, List.contains_cons, List.contains_nil, Bool.or_false]

theorem render_attrs_eq_specAttrsNode (schema : List Attr) :
    render_attrs schema = specAttrsNode schema := by
  have hh := get_attributes_eq_specFields "header" (by decide) schema
  have hq := get_attributes_eq_specFields "querystring" (by decide) schema
  have hb := get_attributes_eq_specFields "body" (by decide) schema
  have hitem : ∀ s : List Attr, s.map render_attr_item = s.map specItem :=
    fun s => List.map_congr_left (fun a _ => render_attr_item_eq_specItem a)
  unfold render_attrs specAttrsNode
  simp only [List.foldl_cons, List.foldl_nil, List.flatMap_cons, List.flatMap_nil]
  rw [hh, hq, hb]
  simp only [hitem]
  by_cases e1 : specFields schema "header" = [] <;>
    by_cases e2 : specFields schema "querystring" = [] <;>
      by_cases e3 : specFields schema "body" = [] <;>
        simp [e1, e2, e3]

/-- C7 (amended): for every schema the renderer emits, in the fixed order
`header`, `querystring`, `body`, a label and a bulleted list per non-empty
location, each item showing the bold field name, a parenthesized type when
determinable, and — only when the field is not required or has a
description — a suffix in which the `"(default: <json>)"` / `"(optional)"`
marker is emitted only for non-required fields, followed by the description
when present (so a required field with a description gets only the
description, and a required field without one gets no suffix); a field
lacking a `location` attribute is listed only under `body`. -/
theorem render_attrs_spec :
    (∀ schema : List Attr, render_attrs schema = specAttrsNode schema) ∧
    (∀ (schema : List Attr) (attr : Attr), attr ∈ schema → attr.location = none →
      attr ∈ _get_attributes schema "body" ∧
      attr ∉ _get_attributes schema "header" ∧
      attr ∉ _get_attributes schema "querystring") := by
  refine ⟨render_attrs_eq_specAttrsNode, ?_⟩
  intro schema attr hmem hloc
  refine ⟨?_, ?_, ?_⟩
  · unfold _get_attributes
    refine List.mem_filter.mpr ⟨hmem, ?_⟩
    simp only [hloc]
    decide
  · unfold _get_attributes
    intro hcon
    have h2 := (List.mem_filter.mp hcon).2
    simp only [hloc] at h2
    exact absurd h2 (by decide)
  · unfold _get_attributes
    intro hcon
    have h2 := (List.mem_filter.mp hcon).2
    simp only [hloc] at h2
    exact absurd h2 (by decide)

/-- C7 witness: the schema-rendering specification at a one-field schema
whose field has no location attribute. -/
theorem render_attrs_spec_witness :
    render_attrs [{ name := "f" }] = specAttrsNode [{ name := "f" }] ∧
    ({ name := "f" } : Attr) ∈ _get_attributes [{ name := "f" }] "body" ∧
    ({ name := "f" } : Attr) ∉ _get_attributes [{ name := "f" }] "header" :=
  ⟨render_attrs_spec.1 _,
   (render_attrs_spec.2 [{ name := "f" }] { name := "f" } (by simp) rfl).1,
   (render_attrs_spec.2 [{ name := "f" }] { name := "f" } (by simp) rfl).2.1⟩

theorem render_definition_strip (rstP : String → Node)
    (options : List (String × OptVal)) (d : Definition) (sid₁ sid₂ : String) :
    stripExceptOpt (render_definition rstP options sid₁ d) =
      stripExceptOpt (render_definition rstP options sid₂ d) := by
  unfold render_definition
  by_cases h1 : d.method = "HEAD"
  · simp only [if_pos h1]
  simp only [if_neg h1]
  by_cases h2 : ((optGetList options "ignore-methods").contains d.method) = true
  · simp only [if_pos h2]
  simp only [if_neg h2]
  rcases h3 : _resolve_obj_to_docstring d.view d.args with e | doc0 <;> simp only [h3]
  rcases h4 : appendValidatorDocstrings (d.args.validators.getD []) d.args
      (applyReplaces (optGetMap options "docstring-replace") doc0) with e | ds <;>
    simp only [h4]
  rcases h5 : rst2node rstP ds with _ | node <;> simp only [h5]
  rcases h6 : d.args.renderer with _ | r <;> simp only [h6]
  simp [stripExceptOpt, stripMethodNode]

theorem render_definitions_strip (rstP : String → Node)
    (options : List (String × OptVal)) (sid₁ sid₂ : String) :
    ∀ ds : List Definition,
      stripResultMethods (render_definitions rstP options sid₁ ds) =
        stripResultMethods (render_definitions rstP options sid₂ ds)
  | [] => rfl
  | d :: ds => by
    have hd := render_definition_strip rstP options d sid₁ sid₂
    have hds := render_definitions_strip rstP options sid₁ sid₂ ds
    unfold render_definitions
    rcases h1 : render_definition rstP options sid₁ d with e₁ | n₁
    · rcases h2 : render_definition rstP options sid₂ d with e₂ | n₂
      · rw [h1, h2] at hd
        have he : e₁ = e₂ := by
          simpa [stripExceptOpt] using hd
        subst he
        simp only [h1, h2]
      · rw [h1, h2] at hd
        exact Except.noConfusion hd
    · rcases h2 : render_definition rstP options sid₂ d with e₂ | n₂
      · rw [h1, h2] at hd
        exact Except.noConfusion hd
      · rw [h1, h2] at hd
        have hmap : n₁.map stripMethodNode = n₂.map stripMethodNode := by
          simpa [stripExceptOpt] using hd
        simp only [h1, h2]
        rcases h3 : render_definitions rstP options sid₁ ds with e₃ | rest₁
        · rcases h4 : render_definitions rstP options sid₂ ds with e₄ | rest₂
          · rw [h3, h4] at hds
            have he : e₃ = e₄ := by
              simpa [stripResultMethods] using hds
            subst he
            rfl
          · rw [h3, h4] at hds
            exact Except.noConfusion hds
        · rcases h4 : render_definitions rstP options sid₂ ds with e₄ | rest₂
          · rw [h3, h4] at hds
            exact Except.noConfusion hds
          · rw [h3, h4] at hds
            have hrest : rest₁.map stripMethodNode = rest₂.map stripMethodNode := by
              simpa [stripResultMethods] using hds
            simp only [stripResultMethods, Except.ok.injEq, List.map_append, hrest]
            cases n₁ with
            | none =>
              cases n₂ with
              | none => rfl
              | some a₂ => exact Option.noConfusion hmap
            | some a₁ =>
              cases n₂ with
              | none => exact Option.noConfusion hmap
              | some a₂ =>
                have ha : stripMethodNode a₁ = stripMethodNode a₂ := by
                  simpa using hmap
                simp [ha]

theorem _render_service_strip (rstP : String → Node)
    (options : List (String × OptVal)) (service : Service) (serial₁ serial₂ : Nat) :
    stripExcept1 (_render_service rstP options serial₁ service) =
      stripExcept1 (_render_service rstP options serial₂ service) := by
  have hds := render_definitions_strip rstP options
    ("service-" ++ toString serial₁) ("service-" ++ toString serial₂)
    service.definitions
  unfold _render_service
  rcases h1 : render_definitions rstP options ("service-" ++ toString serial₁)
      service.definitions with e₁ | m₁
  · rcases h2 : render_definitions rstP options ("service-" ++ toString serial₂)
        service.definitions with e₂ | m₂
    · rw [h1, h2] at hds
      have he : e₁ = e₂ := by
        simpa [stripResultMethods] using hds
      subst he
      simp only [h1, h2]
    · rw [h1, h2] at hds
      exact Except.noConfusion hds
  · rcases h2 : render_definitions rstP options ("service-" ++ toString serial₂)
        service.definitions with e₂ | m₂
    · rw [h1, h2] at hds
      exact Except.noConfusion hds
    · rw [h1, h2] at hds
      have hm : m₁.map stripMethodNode = m₂.map stripMethodNode := by
        simpa [stripResultMethods] using hds
      simp only [h1, h2]
      simp only [stripExcept1, stripIdsTop, Except.ok.injEq, Node.section.injEq,
        List.map_append, List.map_cons, hm]

theorem render_services_strip (rstP : String → Node)
    (options : List (String × OptVal)) :
    ∀ (services : List Service) (s₁ s₂ : Nat),
      stripResult ((render_services rstP options services s₁).2.2) =
        stripResult ((render_services rstP options services s₂).2.2)
  | [], _, _ => rfl
  | svc :: ss, s₁, s₂ => by
    have hsvc := _render_service_strip rstP options svc s₁ s₂
    have hss := render_services_strip rstP options ss (s₁ + 1) (s₂ + 1)
    unfold render_services
    rcases h1 : _render_service rstP options s₁ svc with e₁ | n₁
    · rcases h2 : _render_service rstP options s₂ svc with e₂ | n₂
      · rw [h1, h2] at hsvc
        have he : e₁ = e₂ := by
          simpa [stripExcept1] using hsvc
        subst he
        simp only [h1, h2]
      · rw [h1, h2] at hsvc
        exact Except.noConfusion hsvc
    · rcases h2 : _render_service rstP options s₂ svc with e₂ | n₂
      · rw [h1, h2] at hsvc
        exact Except.noConfusion hsvc
      · rw [h1, h2] at hsvc
        have hn : stripIdsTop n₁ = stripIdsTop n₂ := by
          simpa [stripExcept1] using hsvc
        simp only [h1, h2]
        rcases h3 : (render_services rstP options ss (s₁ + 1)).2.2 with e₃ | rest₁
        · rcases h4 : (render_services rstP options ss (s₂ + 1)).2.2 with e₄ | rest₂
          · rw [h3, h4] at hss
            have he : e₃ = e₄ := by
              simpa [stripResult] using hss
            subst he
            simp [h3, h4]
          · rw [h3, h4] at hss
            exact Except.noConfusion hss
        · rcases h4 : (render_services rstP options ss (s₂ + 1)).2.2 with e₄ | rest₂
          · rw [h3, h4] at hss
            exact Except.noConfusion hss
          · rw [h3, h4] at hss
            have hrest : rest₁.map stripIdsTop = rest₂.map stripIdsTop := by
              simpa [stripResult] using hss
            simp [h3, h4, stripResult, hn, hrest]

theorem render_services_events (rstP : String → Node)
    (options : List (String × OptVal)) :
    ∀ (services : List Service) (serial : Nat),
      ∀ e ∈ (render_services rstP options services serial).1,
        ∃ nm, e = Event.rendered nm
  | [], _ => by
    intro e he
    simp [render_services] at he
  | svc :: ss, serial => by
    intro e he
    unfold render_services at he
    rcases h1 : _render_service rstP options serial svc with e₁ | n₁ <;>
      simp only [h1] at he
    · simp at he
    · rcases List.mem_cons.mp he with rfl | h2
      · exact ⟨svc.name, rfl⟩
      · exact render_services_events rstP options ss (serial + 1) e h2

/-- C4 counterexample: the directive clears the registry *before*
rendering, not after — the event trace of a run is `[cleared, rendered …]`,
never `[rendered …, cleared]` — and two successive invocations with the
same arguments do not yield identical output: the sphinx serial counter
keeps counting, so the section ids differ (`service-0` vs `service-1`). -/
theorem run_order_and_ids_counterexample :
    (ServiceDirective.run
      (fun _ => [⟨"svc", "/svc", none,
        [⟨"GET", Handler.obj (some "doc"), { renderer := some "json" }⟩]⟩])
      (fun _ => []) (fun _ => Node.paragraph "parsed" [])
      [("modules", OptVal.vlist ["m"])] ⟨[], [], 0⟩).events =
      [Event.cleared, Event.rendered "svc"] ∧
    (ServiceDirective.run
      (fun _ => [⟨"svc", "/svc", none,
        [⟨"GET", Handler.obj (some "doc"), { renderer := some "json" }⟩]⟩])
      (fun _ => []) (fun _ => Node.paragraph "parsed" [])
      [("modules", OptVal.vlist ["m"])] ⟨[], [], 0⟩).events ≠
      [Event.rendered "svc", Event.cleared] ∧
    resultIds (ServiceDirective.run
      (fun _ => [⟨"svc", "/svc", none,
        [⟨"GET", Handler.obj (some "doc"), { renderer := some "json" }⟩]⟩])
      (fun _ => []) (fun _ => Node.paragraph "parsed" [])
      [("modules", OptVal.vlist ["m"])] ⟨[], [], 0⟩).result = [["service-0"]] ∧
    resultIds (ServiceDirective.run
      (fun _ => [⟨"svc", "/svc", none,
        [⟨"GET", Handler.obj (some "doc"), { renderer := some "json" }⟩]⟩])
      (fun _ => []) (fun _ => Node.paragraph "parsed" [])
      [("modules", OptVal.vlist ["m"])]
      (ServiceDirective.run
        (fun _ => [⟨"svc", "/svc", none,
          [⟨"GET", Handler.obj (some "doc"), { renderer := some "json" }⟩]⟩])
        (fun _ => []) (fun _ => Node.paragraph "parsed" [])
        [("modules", OptVal.vlist ["m"])] ⟨[], [], 0⟩).world).result =
      [["service-1"]] ∧
    (ServiceDirective.run
      (fun _ => [⟨"svc", "/svc", none,
        [⟨"GET", Handler.obj (some "doc"), { renderer := some "json" }⟩]⟩])
      (fun _ => []) (fun _ => Node.paragraph "parsed" [])
      [("modules", OptVal.vlist ["m"])]
      (ServiceDirective.run
        (fun _ => [⟨"svc", "/svc", none,
          [⟨"GET", Handler.obj (some "doc"), { renderer := some "json" }⟩]⟩])
        (fun _ => []) (fun _ => Node.paragraph "parsed" [])
        [("modules", OptVal.vlist ["m"])] ⟨[], [], 0⟩).world).result ≠
    (ServiceDirective.run
      (fun _ => [⟨"svc", "/svc", none,
        [⟨"GET", Handler.obj (some "doc"), { renderer := some "json" }⟩]⟩])
      (fun _ => []) (fun _ => Node.paragraph "parsed" [])
      [("modules", OptVal.vlist ["m"])] ⟨[], [], 0⟩).result := by
  refine ⟨rfl, by decide, rfl, rfl, fun h => ?_⟩
  exact absurd (congrArg resultIds h) (by decide)

/-- C4 (amended): the directive clears the service registry immediately
after querying it and *before* rendering — the event trace is the clear
event followed only by render events — so no residual registry state
survives, even when rendering raises; starting from an empty registry, a
second invocation with the same arguments (whose imports re-register the
same services) produces the same output up to the sphinx-allocated section
serial identifiers. -/
theorem run_clear_spec (impEff appEff : String → List Service) (rstP : String → Node)
    (options : List (String × OptVal)) (w : World)
    (hreg : w.registry = []) :
    (ServiceDirective.run impEff appEff rstP options w).world.registry = [] ∧
    (ServiceDirective.run impEff appEff rstP options
        (ServiceDirective.run impEff appEff rstP options w).world).world.registry = [] ∧
    (∃ evs, (ServiceDirective.run impEff appEff rstP options w).events =
        Event.cleared :: evs ∧ ∀ e ∈ evs, ∃ nm, e = Event.rendered nm) ∧
    stripResult (ServiceDirective.run impEff appEff rstP options
        (ServiceDirective.run impEff appEff rstP options w).world).result =
      stripResult (ServiceDirective.run impEff appEff rstP options w).result := by
  have hres : ∀ X : World, (ServiceDirective.run impEff appEff rstP options X).result =
      (render_services rstP options (selectedServices impEff appEff options X) X.serial).2.2 :=
    fun _ => rfl
  have hsel : selectedServices impEff appEff options
      (ServiceDirective.run impEff appEff rstP options w).world =
      selectedServices impEff appEff options w := by
    unfold selectedServices importedRegistry
    rw [hreg]
    rfl
  refine ⟨rfl, rfl, ⟨_, rfl, render_services_events rstP options _ _⟩, ?_⟩
  rw [hres, hres, hsel]
  exact render_services_strip rstP options _ _ _

/-- C4 witness: the clearing/repeatability specification at a concrete
module-registered service, starting from an empty registry. -/
theorem run_clear_spec_witness :
    (ServiceDirective.run
      (fun _ => [⟨"ws", "/ws", none,
        [⟨"GET", Handler.obj (some "doc"), { renderer := some "json" }⟩]⟩])
      (fun _ => []) (fun _ => Node.paragraph "parsed" [])
      [("modules", OptVal.vlist ["m"])] ⟨[], [], 0⟩).world.registry = [] ∧
    stripResult (ServiceDirective.run
      (fun _ => [⟨"ws", "/ws", none,
        [⟨"GET", Handler.obj (some "doc"), { renderer := some "json" }⟩]⟩])
      (fun _ => []) (fun _ => Node.paragraph "parsed" [])
      [("modules", OptVal.vlist ["m"])]
      (ServiceDirective.run
        (fun _ => [⟨"ws", "/ws", none,
          [⟨"GET", Handler.obj (some "doc"), { renderer := some "json" }⟩]⟩])
        (fun _ => []) (fun _ => Node.paragraph "parsed" [])
        [("modules", OptVal.vlist ["m"])] ⟨[], [], 0⟩).world).result =
      stripResult (ServiceDirective.run
        (fun _ => [⟨"ws", "/ws", none,
          [⟨"GET", Handler.obj (some "doc"), { renderer := some "json" }⟩]⟩])
        (fun _ => []) (fun _ => Node.paragraph "parsed" [])
        [("modules", OptVal.vlist ["m"])] ⟨[], [], 0⟩).result :=
  ⟨(run_clear_spec
      (fun _ => [⟨"ws", "/ws", none,
        [⟨"GET", Handler.obj (some "doc"), { renderer := some "json" }⟩]⟩])
      (fun _ => []) (fun _ => Node.paragraph "parsed" [])
      [("modules", OptVal.vlist ["m"])] ⟨[], [], 0⟩ rfl).1,
   (run_clear_spec
      (fun _ => [⟨"ws", "/ws", none,
        [⟨"GET", Handler.obj (some "doc"), { renderer := some "json" }⟩]⟩])
      (fun _ => []) (fun _ => Node.paragraph "parsed" [])
      [("modules", OptVal.vlist ["m"])] ⟨[], [], 0⟩ rfl).2.2.2⟩

end CorniceSphinx
